import Mathlib

/-!
# RSA-Cryptosystem: a shallow embedding of `numtheory.c` and `rsa.c`

GMP integers (`mpz_t`) are modelled by `Int`; `uint64_t` / `size_t` values by `Nat`, with an
explicit `% 2 ^ 64` wherever the C arithmetic can wrap.  Every `while` loop is a function that
recurses on a step budget and answers `none` when the budget is spent, so a result `some x`
always stands for a run of the C loop that reached its exit.  The functions that the C code calls
with a fixed entry state choose the budget themselves, large enough for every pass the loop can
make; the theorems below prove the result `some _` on the inputs they are about.

The process-wide `gmp_randstate_t state` is modelled by the list of raw values it is still going
to produce (`RandState`).  A draw removes the head of the list and reduces it into the range GMP
guarantees for the call; a run that needs more draws than the list holds answers `none`.

GMP conventions used:
* `mpz_mod` / `mpz_mod_ui` return the non-negative remainder, which is `Int.emod` (`%`);
* `mpz_fdiv_q` / `mpz_fdiv_q_ui` round towards minus infinity, which is `Int.fdiv`;
* `mpz_sizeinbase (x, 2)` is the number of bits of `|x|`, and `1` for `x = 0`;
* `mpz_import` / `mpz_export` with order `1` and size `1` are big-endian base-256 conversion,
  and `mpz_export` writes no byte at all for the value `0`.
A division by zero inside GMP (a zero modulus) is outside the model: the theorems that need a
modulus state that it is positive.
-/

namespace RSA

/-! ## GMP helpers -/

/-- Number of binary digits of `n` (`0` for `n = 0`), counted by repeated halving. -/
def bit_count : Nat → Nat → Nat
  | 0, _ => 0
  | fuel + 1, n => if n = 0 then 0 else bit_count fuel (n / 2) + 1

/-- The value of `mpz_sizeinbase (x, 2)`: the bit length of `|x|`, and `1` when `x = 0`. -/
def mpz_sizeinbase2 (x : Int) : Nat :=
  if x = 0 then 1 else bit_count x.natAbs x.natAbs

/-- A byte of a file or of a block buffer (`uint8_t`). -/
abbrev Byte := Fin 256

/-- The call `mpz_import (m, count, 1, 1, 1, 0, block)`: the big-endian base-256 value of the
first `count` bytes of the buffer, given here as the list `block`. -/
def mpz_import (block : List Byte) : Int :=
  block.foldl (fun acc b => acc * 256 + (b.val : Int)) 0

/-- Base-256 digits of `m`, most significant first, pushed in front of `acc`. -/
def mpz_export_digits : Nat → Nat → List Byte → List Byte
  | 0, _, acc => acc
  | fuel + 1, m, acc =>
    if m = 0 then acc
    else mpz_export_digits fuel (m / 256) (⟨m % 256, Nat.mod_lt m (by decide)⟩ :: acc)

/-- The call `mpz_export (block, &j, 1, 1, 1, 0, m)`: the big-endian bytes of `|m|` without
leading zero bytes (no byte for `m = 0`); `j` is the length of the list. -/
def mpz_export (m : Int) : List Byte :=
  mpz_export_digits m.natAbs m.natAbs []

/-- The random state: the raw values the generator is still going to produce. -/
abbrev RandState := List Nat

/-- The call `mpz_urandomb (rop, state, bits)`: a value in `[0, 2 ^ bits)`. -/
def mpz_urandomb (state : RandState) (bits : Nat) : Option (Int × RandState) :=
  match state with
  | [] => none
  | x :: rest => some (((x % 2 ^ bits : Nat) : Int), rest)

/-- The call `mpz_urandomm (rop, state, n)`: a value in `[0, n)`. -/
def mpz_urandomm (state : RandState) (n : Int) : Option (Int × RandState) :=
  match state with
  | [] => none
  | x :: rest => some ((x : Int) % n, rest)

/-! ## numtheory.c -/

/-- The `while (b != 0)` loop of `gcd` (numtheory.c:15-19). -/
def gcd_loop : Nat → Int → Int → Option Int
  | 0, _, _ => none
  | fuel + 1, a_val, b_val =>
    if b_val ≠ 0 then gcd_loop fuel b_val (a_val % b_val) else some a_val

/-- The function `gcd (d, a, b)` of numtheory.c:10-22; the result is the value stored in `d`. -/
def gcd (a b : Int) : Option Int :=
  gcd_loop (b.natAbs + 1) a b

/-- The `while (rp != 0)` loop of `mod_inverse` (numtheory.c:32-42); the result is `(r, t)`. -/
def mod_inverse_loop : Nat → Int → Int → Int → Int → Option (Int × Int)
  | 0, _, _, _, _ => none
  | fuel + 1, r, rp, t, tp =>
    if rp ≠ 0 then
      let q := Int.fdiv r rp
      mod_inverse_loop fuel rp (r - q * rp) tp (t - q * tp)
    else some (r, t)

/-- The function `mod_inverse (i, a, n)` of numtheory.c:25-51; the result is the value of `i`. -/
def mod_inverse (a n : Int) : Option Int :=
  match mod_inverse_loop (a.natAbs + 1) n a 0 1 with
  | none => none
  | some (r, t) =>
    let t1 := if 1 < r then 0 else t
    let t2 := if t1 < 0 then t1 + n else t1
    some t2

/-- The `while (d > 0)` loop of `pow_mod` (numtheory.c:61-72) on the variables `v`, `p`, `d`. -/
def pow_mod_loop : Nat → Int → Int → Int → Int → Option Int
  | 0, _, _, _, _ => none
  | fuel + 1, v, p, d, modulus =>
    if 0 < d then
      let v1 := if d % 2 = 1 then (v * p) % modulus else v
      pow_mod_loop fuel v1 ((p * p) % modulus) (Int.fdiv d 2) modulus
    else some v

/-- The function `pow_mod (out, base, exponent, modulus)` of numtheory.c:55-75. -/
def pow_mod (base exponent modulus : Int) : Option Int :=
  pow_mod_loop (exponent.toNat + 1) 1 base exponent modulus

/-- The loop of `is_prime` that splits `n - 1` into `2 ^ s * r` (numtheory.c:94-98); the result
is `(s, r)`. -/
def is_prime_split : Nat → Int → Int → Option (Int × Int)
  | 0, _, _ => none
  | fuel + 1, s, r =>
    if r % 2 = 0 then is_prime_split fuel (s + 1) (r / 2) else some (s, r)

/-- The inner `while (j <= s - 1 && y != n - 1)` loop of `is_prime` (numtheory.c:109-116).
The result `some none` is the `return false` taken inside the loop when `y` becomes `1`;
`some (some y)` is a normal exit of the loop with the final `y`. -/
def is_prime_squarings : Nat → Int → Int → Int → Int → Option (Option Int)
  | 0, _, _, _, _ => none
  | fuel + 1, y, j, temp2, n =>
    if j ≤ temp2 ∧ y ≠ n - 1 then
      match pow_mod y 2 n with
      | none => none
      | some y1 =>
        if y1 = 1 then some none
        else is_prime_squarings fuel y1 (j + 1) temp2 n
    else some (some y)

/-- The `for (i = 1; i < iters; i++)` loop of `is_prime` (numtheory.c:100-122); the first
argument is the number of rounds still to run.  The result carries the random state left
behind. -/
def is_prime_rounds : Nat → Int → Int → Int → RandState → Option (Bool × RandState)
  | 0, _, _, _, state => some (true, state)
  | rounds + 1, n, s, r, state =>
    match mpz_urandomm state (n - 3) with
    | none => none
    | some (a0, state1) =>
      let a := a0 + 2
      match pow_mod a r n with
      | none => none
      | some y =>
        if y ≠ 1 ∧ y ≠ n - 1 then
          match is_prime_squarings (s.toNat + 1) y 1 (s - 1) n with
          | none => none
          | some none => some (false, state1)
          | some (some y1) =>
            if y1 ≠ n - 1 then some (false, state1)
            else is_prime_rounds rounds n s r state1
        else is_prime_rounds rounds n s r state1

/-- The function `is_prime (n, iters)` of numtheory.c:79-125, with the random state threaded
through.  The `for` loop runs for `i = 1, ..., iters - 1`. -/
def is_prime (n : Int) (iters : Nat) (state : RandState) : Option (Bool × RandState) :=
  if n ≤ 1 ∨ n = 4 then some (false, state)
  else if n = 2 ∨ n = 3 then some (true, state)
  else
    match is_prime_split n.toNat 0 (n - 1) with
    | none => none
    | some (s, r) => is_prime_rounds (iters - 1) n s r state

/-- The `while` loop of `make_prime` (numtheory.c:130-132) for the current candidate `p`.
The C condition `size < bits - 1 || !is_prime (p, iters)` short-circuits, so `is_prime` is only
run (and only then draws bases) when the size test lets the candidate through; `bits - 1` is
`uint64_t` arithmetic. -/
def make_prime_loop : Nat → Int → RandState → Nat → Nat → Option (Int × RandState)
  | 0, _, _, _, _ => none
  | fuel + 1, p, state, bits, iters =>
    if mpz_sizeinbase2 p < (bits + 2 ^ 64 - 1) % 2 ^ 64 then
      match mpz_urandomb state bits with
      | none => none
      | some (p1, state1) => make_prime_loop fuel p1 state1 bits iters
    else
      match is_prime p iters state with
      | none => none
      | some (true, state1) => some (p, state1)
      | some (false, state1) =>
        match mpz_urandomb state1 bits with
        | none => none
        | some (p1, state2) => make_prime_loop fuel p1 state2 bits iters

/-- The function `make_prime (p, bits, iters)` of numtheory.c:128-133.  Every pass of the loop
that does not leave it consumes a draw, so the length of the random state bounds the number of
passes. -/
def make_prime (state : RandState) (bits iters : Nat) : Option (Int × RandState) :=
  match mpz_urandomb state bits with
  | none => none
  | some (p, state1) => make_prime_loop (state1.length + 1) p state1 bits iters

/-! ## rsa.c -/

/-- The exponent search `while (done == false)` of `rsa_make_pub` (rsa.c:34-40).  Each pass
draws `rand_num` with `mpz_urandomb (rand_num, state, nbits)`, that is the head of the random
state reduced below `2 ^ nbits`, and leaves the loop when `gcd` stores `1` in `d`. -/
def rsa_make_pub_exponent : RandState → Nat → Int → Option (Int × RandState)
  | [], _, _ => none
  | x :: rest, nbits, totient =>
    let rand_num : Int := ((x % 2 ^ nbits : Nat) : Int)
    match gcd rand_num totient with
    | none => none
    | some d =>
      if d = 1 then some (rand_num, rest)
      else rsa_make_pub_exponent rest nbits totient

/-- The function `rsa_make_pub (p, q, n, e, nbits, iters)` of rsa.c:15-44.  The argument `random`
is the value returned by the call of the C library function `random ()`; the result is
`(p, q, n, e)` and the random state left behind.  The bit split is `uint64_t` arithmetic, and a
zero divisor of the `%` ends the run. -/
def rsa_make_pub (random : Nat) (state : RandState) (nbits iters : Nat) :
    Option (Int × Int × Int × Int × RandState) :=
  let span := ((3 * nbits) % 2 ^ 64 / 4 + 2 ^ 64 - nbits / 4) % 2 ^ 64
  if span = 0 then none
  else
    let p_bits := (random % span + nbits / 4) % 2 ^ 64
    let q_bits := (nbits + 2 ^ 64 - p_bits) % 2 ^ 64
    match make_prime state ((p_bits + 1) % 2 ^ 64) iters with
    | none => none
    | some (p, state1) =>
      match make_prime state1 ((q_bits + 1) % 2 ^ 64) iters with
      | none => none
      | some (q, state2) =>
        let n := p * q
        let totient := (p - 1) * (q - 1)
        match rsa_make_pub_exponent state2 nbits totient with
        | none => none
        | some (e, state3) => some (p, q, n, e, state3)

/-- The function `rsa_make_priv (d, e, p, q)` of rsa.c:59-68. -/
def rsa_make_priv (e p q : Int) : Option Int :=
  mod_inverse e ((p - 1) * (q - 1))

/-- The function `rsa_encrypt (c, m, e, n)` of rsa.c:82-84. -/
def rsa_encrypt (m e n : Int) : Option Int :=
  pow_mod m e n

/-- The function `rsa_decrypt (m, c, d, n)` of rsa.c:137-139. -/
def rsa_decrypt (c d n : Int) : Option Int :=
  pow_mod c d n

/-- The function `rsa_sign (s, m, d, n)` of rsa.c:179-181. -/
def rsa_sign (m d n : Int) : Option Int :=
  pow_mod m d n

/-- The function `rsa_verify (m, s, e, n)` of rsa.c:185-196. -/
def rsa_verify (m s e n : Int) : Option Bool :=
  match pow_mod s e n with
  | none => none
  | some t => if t = m then some true else some false

/-- The `while (j > 0)` loop of `rsa_encrypt_file` (rsa.c:101-131), entered with `j > 0`.
Here `k` is the block size, `bytes` the file length reported by `ftell`, `index` the C variable
of that name and `rest` the bytes of `infile` not read so far; the result is the list of numbers
printed to `outfile`, one per line.  The comparison and the subtractions are `uint64_t`
arithmetic; `fread` delivers `bytes_to_read` bytes or, if fewer remain, all of them. -/
def rsa_encrypt_file_loop : Nat → Nat → Nat → Nat → List Byte → Int → Int → Option (List Int)
  | 0, _, _, _, _, _, _ => none
  | fuel + 1, k, bytes, index, rest, n, e =>
    let bytes_to_read :=
      if (bytes + 2 ^ 64 - (k + 2 ^ 64 - 1) % 2 ^ 64) % 2 ^ 64 ≤ bytes
      then (k + 2 ^ 64 - 1) % 2 ^ 64
      else (bytes + 2 ^ 64 - index) % 2 ^ 64
    if bytes_to_read = 0 then some []
    else
      let payload := rest.take bytes_to_read
      let j := payload.length
      let m := mpz_import ((255 : Byte) :: payload)
      match rsa_encrypt m e n with
      | none => none
      | some c =>
        if 0 < j then
          match rsa_encrypt_file_loop fuel k bytes ((index + j) % 2 ^ 64)
              (rest.drop bytes_to_read) n e with
          | none => none
          | some lines => some (c :: lines)
        else some [c]

/-- The function `rsa_encrypt_file (infile, outfile, n, e)` of rsa.c:87-133: `infile` is the
content of the input file and the result is the list of ciphertexts written to `outfile`, one
hexadecimal line each.  With `k = 0` the store `block[0] = 0xFF` falls outside the empty
allocation, which ends the run.  A pass that continues the loop has read at least one byte, so
the file length bounds the number of passes. -/
def rsa_encrypt_file (infile : List Byte) (n e : Int) : Option (List Int) :=
  let k := (mpz_sizeinbase2 n - 1) / 8
  if k = 0 then none
  else rsa_encrypt_file_loop (infile.length + 1) k (infile.length % 2 ^ 64) 1 infile n e

/-- One pass of the loop of `rsa_decrypt_file` (rsa.c:163-170) for the scanned number `c`: the
bytes written to `outfile`.  The run ends when `mpz_export` produces more than the `k` bytes of
the block, or when it produces none, in which case the length `j - 1` given to `fwrite` wraps
around to `2 ^ 64 - 1`. -/
def rsa_decrypt_file_block (k : Nat) (c n d : Int) : Option (List Byte) :=
  match rsa_decrypt c d n with
  | none => none
  | some m =>
    let block := mpz_export m
    if k < block.length then none
    else if block.length = 0 then none
    else some block.tail

/-- The passes of the loop of `rsa_decrypt_file` over the lines of a non-empty input: scanning
a line also consumes the newline after it, so `feof` holds exactly after the last line. -/
def rsa_decrypt_file_lines : List Int → Nat → Int → Int → Option (List Byte)
  | [], _, _, _ => some []
  | c :: rest, k, n, d =>
    match rsa_decrypt_file_block k c n d with
    | none => none
    | some out =>
      match rsa_decrypt_file_lines rest k n d with
      | none => none
      | some outs => some (out ++ outs)

/-- The function `rsa_decrypt_file (infile, outfile, n, d)` of rsa.c:142-175: `infile` is the
list of numbers on the lines of the input and the result is the content written to `outfile`.
On an empty input `feof` is still false at the first test, the scan fails, and the pass runs
with the value `0` that `mpz_inits` gave to `c`. -/
def rsa_decrypt_file (infile : List Int) (n d : Int) : Option (List Byte) :=
  let k := (mpz_sizeinbase2 n - 1) / 8
  match infile with
  | [] => rsa_decrypt_file_block k 0 n d
  | _ :: _ => rsa_decrypt_file_lines infile k n d

/-- The divisor of the `%` in `rsa_make_pub` (rsa.c:21), `((3 * nbits) / 4) - (nbits / 4)`
in `uint64_t` arithmetic. -/
def rsa_make_pub_divisor (nbits : Nat) : Nat :=
  ((3 * nbits) % 2 ^ 64 / 4 + 2 ^ 64 - nbits / 4) % 2 ^ 64

/-- The value of `p_bits` in `rsa_make_pub` (rsa.c:21) for the value `random` returned by
`random ()`, when the divisor of the `%` is not zero. -/
def rsa_make_pub_p_bits (random nbits : Nat) : Nat :=
  (random % (((3 * nbits) % 2 ^ 64 / 4 + 2 ^ 64 - nbits / 4) % 2 ^ 64) + nbits / 4) % 2 ^ 64

/-- The value of `q_bits` in `rsa_make_pub` (rsa.c:23). -/
def rsa_make_pub_q_bits (random nbits : Nat) : Nat :=
  (nbits + 2 ^ 64 - rsa_make_pub_p_bits random nbits) % 2 ^ 64

/-- The value of `bytes_to_read` computed by a pass of the loop of `rsa_encrypt_file`
(rsa.c:111-115), in `uint64_t` arithmetic. -/
def rsa_encrypt_file_bytes_to_read (k bytes index : Nat) : Nat :=
  if (bytes + 2 ^ 64 - (k + 2 ^ 64 - 1) % 2 ^ 64) % 2 ^ 64 ≤ bytes
  then (k + 2 ^ 64 - 1) % 2 ^ 64
  else (bytes + 2 ^ 64 - index) % 2 ^ 64

/-- The payloads that the passes of the loop of `rsa_encrypt_file` read with `fread`, in the
order of the passes: the loop `rsa_encrypt_file_loop` without the encryption and the output.
The block that a pass hands to `mpz_import` is `0xFF` followed by its payload. -/
def rsa_encrypt_file_payloads : Nat → Nat → Nat → Nat → List Byte → Option (List (List Byte))
  | 0, _, _, _, _ => none
  | fuel + 1, k, bytes, index, rest =>
    let bytes_to_read :=
      if (bytes + 2 ^ 64 - (k + 2 ^ 64 - 1) % 2 ^ 64) % 2 ^ 64 ≤ bytes
      then (k + 2 ^ 64 - 1) % 2 ^ 64
      else (bytes + 2 ^ 64 - index) % 2 ^ 64
    if bytes_to_read = 0 then some []
    else
      let payload := rest.take bytes_to_read
      let j := payload.length
      if 0 < j then
        match rsa_encrypt_file_payloads fuel k bytes ((index + j) % 2 ^ 64)
            (rest.drop bytes_to_read) with
        | none => none
        | some payloads => some (payload :: payloads)
      else some [payload]

/-! ## Specification-side definitions -/

/-- The strong-probable-prime condition in the words of the specification: for
`n - 1 = 2 ^ s * r`, the base `a` satisfies `a ^ r mod n = 1`, or `a ^ (2 ^ j * r) mod n = n - 1`
for some `j` with `0 ≤ j < s`. -/
def StrongProbablePrime (n : Int) (s r : Nat) (a : Int) : Prop :=
  a ^ r % n = 1 ∨ ∃ j, j < s ∧ a ^ (2 ^ j * r) % n = n - 1

/-! ## Loop invariants -/

/-- Loop invariant of `mod_inverse` for the call `mod_inverse (i, a, n)`: the remainders
`r > rp ≥ 0` keep the gcd of `n` and `a`, `t` and `tp` are the coefficients of `a` for them, and
the coefficients have opposite signs and absolute values `u`, `u1` with `r * u1 + rp * u = n`. -/
structure ModInverseInv (a n r rp t tp : Int) : Prop where
  rp_nonneg : 0 ≤ rp
  rp_lt : rp < r
  gcd_eq : Int.gcd r rp = Int.gcd n a
  t_cong : t * a ≡ r [ZMOD n]
  tp_cong : tp * a ≡ rp [ZMOD n]
  bezout : ∃ u u1 : Int, 0 ≤ u ∧ 0 ≤ u1 ∧ ((t = u ∧ tp = -u1) ∨ (t = -u ∧ tp = u1)) ∧
    r * u1 + rp * u = n ∧ (rp = 0 → u * r < n)

/-! ## pow_mod -/

theorem fdiv_two_natCast (d : Nat) : Int.fdiv (d : Int) 2 = ((d / 2 : Nat) : Int) := by
  rw [Int.fdiv_eq_ediv _ (by decide : (0 : Int) ≤ 2)]
  norm_cast

theorem pow_mod_loop_spec (m : Int) (hm : 0 < m) :
    ∀ (fuel d : Nat) (v p : Int), d < fuel →
      ∃ r, pow_mod_loop fuel v p (d : Int) m = some r ∧ r ≡ v * p ^ d [ZMOD m] ∧
        (0 < d → 0 ≤ r ∧ r < m) ∧ (d = 0 → r = v) := by
  intro fuel
  induction fuel with
  | zero => intro d v p h; omega
  | succ fuel ih =>
    intro d v p hd
    rcases Nat.eq_zero_or_pos d with h0 | hpos
    · subst h0
      exact ⟨v, by simp [pow_mod_loop], by simp [Int.ModEq], by simp, by simp⟩
    · have hlt : d / 2 < fuel := by omega
      have hposZ : (0 : Int) < (d : Int) := by exact_mod_cast hpos
      rw [pow_mod_loop, if_pos hposZ, fdiv_two_natCast]
      obtain ⟨r, hr, hmod, hrange, hzero⟩ :=
        ih (d / 2) (if (d : Int) % 2 = 1 then (v * p) % m else v) ((p * p) % m) hlt
      refine ⟨r, hr, ?_, ?_, ?_⟩
      · have hsq : ((p * p) % m) ^ (d / 2) ≡ p ^ (2 * (d / 2)) [ZMOD m] := by
          rw [pow_mul, ← sq]
          exact (Int.mod_modEq _ _).pow _
        rcases Nat.mod_two_eq_zero_or_one d with hpar | hpar
        · have hne : ¬ ((d : Int) % 2 = 1) := by omega
          rw [if_neg hne] at hmod
          have hd2 : d = 2 * (d / 2) := by omega
          calc r ≡ v * ((p * p) % m) ^ (d / 2) [ZMOD m] := hmod
            _ ≡ v * p ^ (2 * (d / 2)) [ZMOD m] := Int.ModEq.mul_left _ hsq
            _ = v * p ^ d := by rw [← hd2]
        · have hodd : (d : Int) % 2 = 1 := by omega
          rw [if_pos hodd] at hmod
          have hd2 : d = 2 * (d / 2) + 1 := by omega
          calc r ≡ (v * p) % m * ((p * p) % m) ^ (d / 2) [ZMOD m] := hmod
            _ ≡ (v * p) * p ^ (2 * (d / 2)) [ZMOD m] :=
              Int.ModEq.mul (Int.mod_modEq _ _) hsq
            _ = v * p ^ d := by
              conv_rhs => rw [hd2]
              ring
      · intro _
        rcases Nat.eq_zero_or_pos (d / 2) with hz | hp
        · have hd1 : d = 1 := by omega
          have hodd : (d : Int) % 2 = 1 := by omega
          rw [hzero hz, if_pos hodd]
          exact ⟨Int.emod_nonneg _ hm.ne', Int.emod_lt_of_pos _ hm⟩
        · exact hrange hp
      · intro h; omega

theorem pow_mod_eq (b d m : Int) (hd : 0 ≤ d) (hm : 1 < m) :
    pow_mod b d m = some (b ^ d.toNat % m) := by
  have hm0 : 0 < m := by omega
  obtain ⟨r, hr, hmod, hrange, hzero⟩ :=
    pow_mod_loop_spec m hm0 (d.toNat + 1) d.toNat 1 b (Nat.lt_succ_self _)
  rw [Int.toNat_of_nonneg hd] at hr
  rw [pow_mod, hr]
  congr 1
  rcases Nat.eq_zero_or_pos d.toNat with hz | hp
  · rw [hzero hz, hz, pow_zero, Int.emod_eq_of_lt (by decide) hm]
  · obtain ⟨h0, h1⟩ := hrange hp
    rw [one_mul] at hmod
    rw [← hmod.eq, Int.emod_eq_of_lt h0 h1]


/-! ## gcd and mod_inverse -/

theorem gcd_emod_step (a b : Int) : Int.gcd b (a % b) = Int.gcd a b := by
  apply Nat.dvd_antisymm
  · apply Int.natCast_dvd_natCast.mp
    apply Int.dvd_gcd
    · have h1 : ((Int.gcd b (a % b) : Nat) : Int) ∣ b := Int.gcd_dvd_left
      have h2 : ((Int.gcd b (a % b) : Nat) : Int) ∣ a % b := Int.gcd_dvd_right
      have h3 : a % b + b * (a / b) = a := Int.emod_add_ediv a b
      have key := dvd_add h2 (Dvd.dvd.mul_right h1 (a / b))
      rwa [h3] at key
    · exact Int.gcd_dvd_left
  · apply Int.natCast_dvd_natCast.mp
    apply Int.dvd_gcd
    · exact Int.gcd_dvd_right
    · have h1 : ((Int.gcd a b : Nat) : Int) ∣ a := Int.gcd_dvd_left
      have h2 : ((Int.gcd a b : Nat) : Int) ∣ b := Int.gcd_dvd_right
      rw [Int.emod_def]
      exact dvd_sub h1 (Dvd.dvd.mul_right h2 _)

theorem ModInverseInv.step {a n r rp t tp : Int} (hn : 0 < n)
    (h : ModInverseInv a n r rp t tp) (hrp : rp ≠ 0) :
    ModInverseInv a n rp (r - Int.fdiv r rp * rp) tp (t - Int.fdiv r rp * tp) := by
  obtain ⟨h0, hlt, hg, ht, htp, u, u1, hu, hu1, hsign, heq, _⟩ := h
  have hpos : 0 < rp := lt_of_le_of_ne h0 (Ne.symm hrp)
  rw [Int.fdiv_eq_ediv _ h0]
  have hrem : r - r / rp * rp = r % rp := by rw [Int.emod_def]; ring
  have hq : 0 ≤ r / rp := Int.ediv_nonneg (by omega) h0
  refine ⟨?_, ?_, ?_, htp, ?_, ?_⟩
  · rw [hrem]; exact Int.emod_nonneg _ hrp
  · rw [hrem]; exact Int.emod_lt_of_pos _ hpos
  · rw [hrem, gcd_emod_step, hg]
  · have := Int.ModEq.sub ht (Int.ModEq.mul_left (r / rp) htp)
    calc (t - r / rp * tp) * a = t * a - r / rp * (tp * a) := by ring
      _ ≡ r - r / rp * rp [ZMOD n] := this
  · refine ⟨u1, u + r / rp * u1, hu1, by positivity, ?_, ?_, ?_⟩
    · rcases hsign with ⟨h1, h2⟩ | ⟨h1, h2⟩
      · right; subst h1 h2; constructor <;> ring
      · left; subst h1 h2; constructor <;> ring
    · rw [← heq]; ring
    · intro _
      rcases eq_or_lt_of_le hu1 with hz | hp
      · rw [← hz]; simpa using hn
      · have h1 : u1 * rp < u1 * r := by nlinarith
        have h2 : 0 ≤ rp * u := by positivity
        nlinarith

theorem mod_inverse_loop_spec (a n : Int) (hn : 0 < n) :
    ∀ (fuel : Nat) (r rp t tp : Int), ModInverseInv a n r rp t tp → rp.toNat < fuel →
      ∃ r1 t1, mod_inverse_loop fuel r rp t tp = some (r1, t1) ∧
        r1 = (Int.gcd n a : Int) ∧ t1 * a ≡ r1 [ZMOD n] ∧ -n < t1 * r1 ∧ t1 * r1 < n := by
  intro fuel
  induction fuel with
  | zero => intro r rp t tp _ h; omega
  | succ fuel ih =>
    intro r rp t tp hinv hfuel
    by_cases hrp : rp = 0
    · subst hrp
      refine ⟨r, t, by simp [mod_inverse_loop], ?_, hinv.t_cong, ?_⟩
      · have := hinv.gcd_eq
        rw [Int.gcd_zero_right] at this
        rw [← this, Int.natCast_natAbs, abs_of_pos hinv.rp_lt]
      · obtain ⟨u, u1, hu, _, hsign, _, hb⟩ := hinv.bezout
        have hb := hb rfl
        have hr := hinv.rp_lt
        rcases hsign with ⟨h1, _⟩ | ⟨h1, _⟩
        · subst h1; constructor <;> nlinarith
        · subst h1; constructor <;> nlinarith
    · have hstep := hinv.step hn hrp
      have h0 := hinv.rp_nonneg
      have hpos : 0 < rp := lt_of_le_of_ne h0 (Ne.symm hrp)
      have hlt := hstep.rp_lt
      rw [mod_inverse_loop, if_pos hrp]
      exact ih _ _ _ _ hstep (by omega)

theorem mod_inverse_entry (a n : Int) (ha : 0 ≤ a) (hn : 0 < n) (hne : a ≠ n) :
    ∃ r1 t1, mod_inverse_loop (a.natAbs + 1) n a 0 1 = some (r1, t1) ∧
      r1 = (Int.gcd n a : Int) ∧ t1 * a ≡ r1 [ZMOD n] ∧ -n < t1 * r1 ∧ t1 * r1 < n := by
  rcases lt_or_gt_of_ne hne with hlt | hgt
  · apply mod_inverse_loop_spec a n hn
    · exact ⟨ha, hlt, rfl, by simp [Int.ModEq], by simp [Int.ModEq],
        0, 1, le_refl _, by decide, Or.inr ⟨by simp, rfl⟩, by ring, fun _ => by simpa using hn⟩
    · omega
  · have ha0 : a ≠ 0 := by omega
    have hq : Int.fdiv n a = 0 := by
      rw [Int.fdiv_eq_ediv _ ha]
      exact Int.ediv_eq_zero_of_lt hn.le hgt
    rw [mod_inverse_loop, if_pos ha0]
    simp only [hq, zero_mul, sub_zero]
    apply mod_inverse_loop_spec a n hn
    · exact ⟨hn.le, hgt, Int.gcd_comm _ _, by simp [Int.ModEq], by simp [Int.ModEq],
        1, 0, by decide, le_refl _, Or.inl ⟨rfl, by simp⟩, by ring, fun h => by omega⟩
    · omega

theorem mod_inverse_coprime (a n : Int) (ha : 0 ≤ a) (hn : 1 < n) (hg : Int.gcd a n = 1) :
    ∃ i, mod_inverse a n = some i ∧ 0 ≤ i ∧ i < n ∧ (i * a) % n = 1 := by
  have hne : a ≠ n := by
    rintro rfl
    rw [Int.gcd_self] at hg
    omega
  obtain ⟨r1, t1, hloop, hr1, hcong, hlo, hhi⟩ := mod_inverse_entry a n ha (by omega) hne
  rw [Int.gcd_comm, hg] at hr1
  have hr1 : r1 = 1 := by simpa using hr1
  subst hr1
  rw [mul_one] at hlo hhi
  have hone : (1 : Int) % n = 1 := Int.emod_eq_of_lt (by decide) hn
  simp only [mod_inverse, hloop, lt_irrefl, if_false]
  by_cases hneg : t1 < 0
  · refine ⟨t1 + n, by simp [hneg], by omega, by omega, ?_⟩
    have : (t1 + n) * a = t1 * a + n * a := by ring
    rw [this, Int.add_mul_emod_self_left, hcong.eq, hone]
  · exact ⟨t1, by simp [hneg], by omega, hhi, by rw [hcong.eq, hone]⟩


theorem gcd_loop_spec : ∀ (fuel : Nat) (a b : Int), 0 ≤ a → 0 ≤ b → b.toNat < fuel →
    gcd_loop fuel a b = some (Int.gcd a b : Int) := by
  intro fuel
  induction fuel with
  | zero => intro a b _ _ h; omega
  | succ fuel ih =>
    intro a b ha hb hfuel
    by_cases hb0 : b = 0
    · subst hb0
      simp [gcd_loop, abs_of_nonneg ha]
    · have hpos : 0 < b := lt_of_le_of_ne hb (Ne.symm hb0)
      have h1 := Int.emod_nonneg a hb0
      have h2 := Int.emod_lt_of_pos a hpos
      rw [gcd_loop, if_pos hb0, ih b (a % b) hb h1 (by omega), gcd_emod_step]

theorem gcd_eq (a b : Int) (ha : 0 ≤ a) (hb : 0 ≤ b) : gcd a b = some (Int.gcd a b : Int) :=
  gcd_loop_spec _ a b ha hb (by omega)

/-! ## The RSA identity -/

theorem fermat_pow (p : ℕ) (hp : p.Prime) (t : ℕ) (m : ℤ) :
    m ^ (1 + (p - 1) * t) ≡ m [ZMOD (p : ℤ)] := by
  haveI : Fact p.Prime := ⟨hp⟩
  rw [← ZMod.intCast_eq_intCast_iff]
  push_cast
  by_cases h0 : (m : ZMod p) = 0
  · rw [h0, pow_add, pow_one, zero_mul]
  · rw [pow_add, pow_one, pow_mul, ZMod.pow_card_sub_one_eq_one h0, one_pow, mul_one]

theorem totient_cast (p q : ℕ) (hp : p.Prime) (hq : q.Prime) :
    (((p - 1) * (q - 1) : ℕ) : ℤ) = ((p : ℤ) - 1) * ((q : ℤ) - 1) := by
  rw [Nat.cast_mul, Nat.cast_sub hp.one_le, Nat.cast_sub hq.one_le]
  rfl

theorem rsa_identity (p q : ℕ) (hp : p.Prime) (hq : q.Prime) (hpq : p ≠ q) (e d : ℕ)
    (hed : (e * d) % ((p - 1) * (q - 1)) = 1) (m : ℤ) :
    m ^ (e * d) ≡ m [ZMOD ((p : ℤ) * (q : ℤ))] := by
  have hdecomp : e * d = 1 + (p - 1) * (q - 1) * (e * d / ((p - 1) * (q - 1))) := by
    have := Nat.div_add_mod (e * d) ((p - 1) * (q - 1))
    omega
  have hcop : (p : ℤ).natAbs.Coprime (q : ℤ).natAbs := by
    simpa using (Nat.coprime_primes hp hq).2 hpq
  rw [← Int.modEq_and_modEq_iff_modEq_mul hcop]
  constructor
  · have h := fermat_pow p hp ((q - 1) * (e * d / ((p - 1) * (q - 1)))) m
    rw [← mul_assoc, ← hdecomp] at h
    exact h
  · have h := fermat_pow q hq ((p - 1) * (e * d / ((p - 1) * (q - 1)))) m
    rw [← mul_assoc, mul_comm (q - 1) (p - 1), ← hdecomp] at h
    exact h

theorem totient_gt_one (p q : ℕ) (hp : p.Prime) (hq : q.Prime) (hpq : p ≠ q) :
    1 < ((p : ℤ) - 1) * ((q : ℤ) - 1) := by
  have h2p : (2 : ℤ) ≤ p := by exact_mod_cast hp.two_le
  have h2q : (2 : ℤ) ≤ q := by exact_mod_cast hq.two_le
  have hne : (p : ℤ) ≠ q := by exact_mod_cast hpq
  rcases lt_or_gt_of_ne hne with h | h <;> nlinarith

theorem modulus_gt_one (p q : ℕ) (hp : p.Prime) (hq : q.Prime) : 1 < (p : ℤ) * (q : ℤ) := by
  have h2p : (2 : ℤ) ≤ p := by exact_mod_cast hp.two_le
  have h2q : (2 : ℤ) ≤ q := by exact_mod_cast hq.two_le
  nlinarith

/-- Exponentiating with `x` and then with `y`, both through `pow_mod`, returns `m` when
`x * y ≡ 1` modulo the totient. -/
theorem pow_mod_pow_mod (p q : ℕ) (hp : p.Prime) (hq : q.Prime) (hpq : p ≠ q) (x y m : ℤ)
    (hx : 0 ≤ x) (hy : 0 ≤ y) (hxy : (x * y) % (((p : ℤ) - 1) * ((q : ℤ) - 1)) = 1)
    (hm0 : 0 ≤ m) (hmn : m < (p : ℤ) * (q : ℤ)) :
    ∃ c, pow_mod m x ((p : ℤ) * (q : ℤ)) = some c ∧ pow_mod c y ((p : ℤ) * (q : ℤ)) = some m := by
  have hn := modulus_gt_one p q hp hq
  refine ⟨_, pow_mod_eq m x _ hx hn, ?_⟩
  rw [pow_mod_eq _ y _ hy hn]
  congr 1
  have hed : (x.toNat * y.toNat) % ((p - 1) * (q - 1)) = 1 := by
    have : (((x.toNat * y.toNat) % ((p - 1) * (q - 1)) : ℕ) : ℤ) = 1 := by
      rw [Int.natCast_mod, totient_cast p q hp hq, Nat.cast_mul, Int.toNat_of_nonneg hx,
        Int.toNat_of_nonneg hy, hxy]
    exact_mod_cast this
  have h1 : (m ^ x.toNat % ((p : ℤ) * (q : ℤ))) ^ y.toNat ≡ m [ZMOD ((p : ℤ) * (q : ℤ))] :=
    calc (m ^ x.toNat % ((p : ℤ) * (q : ℤ))) ^ y.toNat
        ≡ (m ^ x.toNat) ^ y.toNat [ZMOD ((p : ℤ) * (q : ℤ))] := (Int.mod_modEq _ _).pow _
      _ = m ^ (x.toNat * y.toNat) := (pow_mul _ _ _).symm
      _ ≡ m [ZMOD ((p : ℤ) * (q : ℤ))] := rsa_identity p q hp hq hpq _ _ hed m
  rw [h1.eq, Int.emod_eq_of_lt hm0 hmn]

/-- C1: for distinct primes `p`, `q`, a public exponent `e ≥ 0` coprime to `(p-1)(q-1)` and
every `m` with `0 ≤ m < p * q`, `rsa_make_priv` returns some `d`, and decrypting with `d` the
ciphertext that `rsa_encrypt` computes for `m` returns `m`. -/
theorem rsa_decrypt_encrypt (p q : ℕ) (hp : p.Prime) (hq : q.Prime) (hpq : p ≠ q) (e m : ℤ)
    (he : 0 ≤ e) (hgcd : Int.gcd e (((p : ℤ) - 1) * ((q : ℤ) - 1)) = 1)
    (hm0 : 0 ≤ m) (hmn : m < (p : ℤ) * (q : ℤ)) :
    ∃ d c, rsa_make_priv e p q = some d ∧ rsa_encrypt m e ((p : ℤ) * (q : ℤ)) = some c ∧
      rsa_decrypt c d ((p : ℤ) * (q : ℤ)) = some m := by
  obtain ⟨d, hd, hd0, _, hinv⟩ :=
    mod_inverse_coprime e _ he (totient_gt_one p q hp hq hpq) hgcd
  obtain ⟨c, hc, hdec⟩ :=
    pow_mod_pow_mod p q hp hq hpq e d m he hd0 (by rw [mul_comm]; exact hinv) hm0 hmn
  exact ⟨d, c, hd, hc, hdec⟩

theorem rsa_decrypt_encrypt_witness :
    ∃ d c, rsa_make_priv 3 (3 : ℕ) (11 : ℕ) = some d ∧
      rsa_encrypt 7 3 (((3 : ℕ) : ℤ) * ((11 : ℕ) : ℤ)) = some c ∧
      rsa_decrypt c d (((3 : ℕ) : ℤ) * ((11 : ℕ) : ℤ)) = some 7 :=
  rsa_decrypt_encrypt 3 11 (by norm_num) (by norm_num) (by decide) 3 7 (by decide) (by decide)
    (by decide) (by decide)

/-- C3: for distinct primes `p`, `q`, an exponent `e` coprime to `(p-1)(q-1)`, the `d` of
`rsa_make_priv` and every `m` with `0 ≤ m < p * q`, `rsa_verify` accepts the signature that
`rsa_sign` computes for `m`.  The exponent is a non-negative big integer, as every RSA quantity
of the data model. -/
theorem rsa_verify_sign (p q : ℕ) (hp : p.Prime) (hq : q.Prime) (hpq : p ≠ q) (e : ℕ) (m : ℤ)
    (hgcd : Int.gcd (e : ℤ) (((p : ℤ) - 1) * ((q : ℤ) - 1)) = 1)
    (hm0 : 0 ≤ m) (hmn : m < (p : ℤ) * (q : ℤ)) :
    ∃ d s, rsa_make_priv e p q = some d ∧ rsa_sign m d ((p : ℤ) * (q : ℤ)) = some s ∧
      rsa_verify m s e ((p : ℤ) * (q : ℤ)) = some true := by
  have he : (0 : ℤ) ≤ e := Int.natCast_nonneg e
  obtain ⟨d, hd, hd0, _, hinv⟩ :=
    mod_inverse_coprime e _ he (totient_gt_one p q hp hq hpq) hgcd
  obtain ⟨s, hs, hver⟩ := pow_mod_pow_mod p q hp hq hpq d e m hd0 he hinv hm0 hmn
  exact ⟨d, s, hd, hs, by simp [rsa_verify, hver]⟩

theorem rsa_verify_sign_witness :
    ∃ d s, rsa_make_priv ((7 : ℕ) : ℤ) (5 : ℕ) (11 : ℕ) = some d ∧
      rsa_sign 42 d (((5 : ℕ) : ℤ) * ((11 : ℕ) : ℤ)) = some s ∧
      rsa_verify 42 s ((7 : ℕ) : ℤ) (((5 : ℕ) : ℤ) * ((11 : ℕ) : ℤ)) = some true :=
  rsa_verify_sign 5 11 (by norm_num) (by norm_num) (by decide) 7 42 (by decide) (by decide)
    (by decide)

/-! ## is_prime on primes -/

theorem is_prime_split_spec : ∀ (fuel : Nat) (s r : Int), 0 < r → r.toNat < fuel →
    ∃ (k : ℕ) (r1 : Int), is_prime_split fuel s r = some (s + k, r1) ∧ r = 2 ^ k * r1 ∧
      r1 % 2 = 1 ∧ 0 < r1 ∧ (r % 2 = 0 → 0 < k) := by
  intro fuel
  induction fuel with
  | zero => intro s r _ h; omega
  | succ fuel ih =>
    intro s r hr hfuel
    by_cases hpar : r % 2 = 0
    · obtain ⟨k, r1, hres, hpow, hodd, hpos, _⟩ := ih (s + 1) (r / 2) (by omega) (by omega)
      refine ⟨k + 1, r1, ?_, ?_, hodd, hpos, fun _ => Nat.succ_pos k⟩
      · rw [is_prime_split, if_pos hpar, hres]
        congr 2
        push_cast
        ring
      · have : r = 2 * (r / 2) := by omega
        rw [this, hpow]
        ring
    · refine ⟨0, r, ?_, by simp, by omega, hr, fun h => absurd h hpar⟩
      rw [is_prime_split, if_neg hpar]
      simp

theorem sqrt_one_of_prime (n : ℕ) (hn : n.Prime) (y : ℤ) (h0 : 0 ≤ y) (hlt : y < n)
    (hsq : y ^ 2 ≡ 1 [ZMOD (n : ℤ)]) : y = 1 ∨ y = n - 1 := by
  have hprime : Prime (n : ℤ) := Nat.prime_iff_prime_int.mp hn
  have h2 : (2 : ℤ) ≤ n := by exact_mod_cast hn.two_le
  have hdvd : (n : ℤ) ∣ (y - 1) * (y + 1) := by
    have := hsq.symm.dvd
    have heq : y ^ 2 - 1 = (y - 1) * (y + 1) := by ring
    rwa [heq] at this
  rcases hprime.dvd_or_dvd hdvd with h | h
  · left
    rcases eq_or_lt_of_le h0 with hz | hp
    · exfalso
      rw [← hz] at h
      have := Int.le_of_dvd (by decide) ((dvd_neg).mp (by simpa using h) : (n : ℤ) ∣ 1)
      omega
    · have := Int.eq_zero_of_dvd_of_nonneg_of_lt (by omega : 0 ≤ y - 1) (by omega) h
      omega
  · right
    obtain ⟨k, hk⟩ := h
    have hk1 : 0 < k := by nlinarith
    have hk2 : k < 2 := by nlinarith
    have : k = 1 := by omega
    subst this
    omega

theorem is_prime_squarings_prime (n : ℕ) (hn : n.Prime) (s : ℤ) :
    ∀ (fuel e : ℕ) (y j : ℤ), e + 1 ≤ fuel → 1 ≤ e → j + e = s + 1 → 0 ≤ y → y < n → y ≠ 1 →
      y ^ 2 ^ e ≡ 1 [ZMOD (n : ℤ)] →
      is_prime_squarings fuel y j (s - 1) n = some (some ((n : ℤ) - 1)) := by
  have h2 : (2 : ℤ) ≤ n := by exact_mod_cast hn.two_le
  intro fuel
  induction fuel with
  | zero => intro e y j h; omega
  | succ fuel ih =>
    intro e y j hfuel he hj h0 hlt hne hpow
    by_cases hy : y = (n : ℤ) - 1
    · rw [is_prime_squarings, if_neg (by simp [hy]), hy]
    · by_cases he1 : e = 1
      · subst he1
        rw [pow_one] at hpow
        rcases sqrt_one_of_prime n hn y h0 hlt hpow with h | h
        · exact absurd h hne
        · exact absurd h hy
      · have hcond : j ≤ s - 1 ∧ y ≠ (n : ℤ) - 1 := ⟨by omega, hy⟩
        rw [is_prime_squarings, if_pos hcond, pow_mod_eq y 2 n (by decide) (by omega)]
        have htwo : (2 : ℤ).toNat = 2 := rfl
        rw [htwo]
        have hpow1 : (y ^ 2 % (n : ℤ)) ^ 2 ^ (e - 1) ≡ 1 [ZMOD (n : ℤ)] :=
          calc (y ^ 2 % (n : ℤ)) ^ 2 ^ (e - 1) ≡ (y ^ 2) ^ 2 ^ (e - 1) [ZMOD (n : ℤ)] :=
                (Int.mod_modEq _ _).pow _
            _ = y ^ 2 ^ e := by
                rw [← pow_mul, ← pow_succ']
                congr 2
                omega
            _ ≡ 1 [ZMOD (n : ℤ)] := hpow
        have hy1 : y ^ 2 % (n : ℤ) ≠ 1 := by
          intro h1
          have hsq : y ^ 2 ≡ 1 [ZMOD (n : ℤ)] := by
            rw [Int.ModEq, h1, Int.emod_eq_of_lt (by decide) (by omega)]
          rcases sqrt_one_of_prime n hn y h0 hlt hsq with h | h
          · exact hne h
          · exact hy h
        simp only [hy1, if_false]
        exact ih (e - 1) _ (j + 1) (by omega) (by omega) (by omega)
          (Int.emod_nonneg _ (by omega)) (Int.emod_lt_of_pos _ (by omega)) hy1 hpow1

theorem is_prime_rounds_prime (n : ℕ) (hn : n.Prime) (h5 : 5 ≤ n) (k : ℕ) (r : ℤ)
    (hk : 0 < k) (hr : 0 ≤ r) (hsplit : (n : ℤ) - 1 = 2 ^ k * r) :
    ∀ (rounds : ℕ) (state : RandState),
      is_prime_rounds rounds n k r state =
        if rounds ≤ state.length then some (true, state.drop rounds) else none := by
  have h5z : (5 : ℤ) ≤ n := by exact_mod_cast h5
  intro rounds
  induction rounds with
  | zero => intro state; simp [is_prime_rounds]
  | succ rounds ih =>
    intro state
    cases state with
    | nil => simp [is_prime_rounds, mpz_urandomm]
    | cons x rest =>
      have hnext : is_prime_rounds rounds n k r rest =
          if rounds + 1 ≤ (x :: rest).length then some (true, (x :: rest).drop (rounds + 1))
          else none := by
        rw [ih rest]
        simp
      have ha0 : 0 ≤ (x : ℤ) % ((n : ℤ) - 3) := Int.emod_nonneg _ (by omega)
      have ha1 : (x : ℤ) % ((n : ℤ) - 3) < (n : ℤ) - 3 := Int.emod_lt_of_pos _ (by omega)
      generalize (if rounds + 1 ≤ (x :: rest).length
        then some (true, (x :: rest).drop (rounds + 1)) else none) = target at hnext ⊢
      rw [is_prime_rounds]
      simp only [mpz_urandomm]
      rw [pow_mod_eq _ r n hr (by omega)]
      simp only []
      split_ifs with hy
      · have hfermat : ((x : ℤ) % ((n : ℤ) - 3) + 2) ^ (n - 1) ≡ 1 [ZMOD (n : ℤ)] := by
          apply Int.ModEq.pow_card_sub_one_eq_one hn
          rw [Int.isCoprime_iff_gcd_eq_one, Int.gcd_comm]
          have hprime : Prime (n : ℤ) := Nat.prime_iff_prime_int.mp hn
          rw [← Int.isCoprime_iff_gcd_eq_one, hprime.coprime_iff_not_dvd]
          intro hdvd
          have := Int.le_of_dvd (by omega) hdvd
          omega
        have hexp : r.toNat * 2 ^ k = n - 1 := by
          have : ((r.toNat * 2 ^ k : ℕ) : ℤ) = ((n - 1 : ℕ) : ℤ) := by
            rw [Nat.cast_sub (by omega), Nat.cast_mul, Int.toNat_of_nonneg hr]
            push_cast
            rw [hsplit]
            ring
          exact_mod_cast this
        have hpow : (((x : ℤ) % ((n : ℤ) - 3) + 2) ^ r.toNat % (n : ℤ)) ^ 2 ^ k
            ≡ 1 [ZMOD (n : ℤ)] :=
          calc (((x : ℤ) % ((n : ℤ) - 3) + 2) ^ r.toNat % (n : ℤ)) ^ 2 ^ k
              ≡ (((x : ℤ) % ((n : ℤ) - 3) + 2) ^ r.toNat) ^ 2 ^ k [ZMOD (n : ℤ)] :=
                (Int.mod_modEq _ _).pow _
            _ = ((x : ℤ) % ((n : ℤ) - 3) + 2) ^ (n - 1) := by rw [← pow_mul, hexp]
            _ ≡ 1 [ZMOD (n : ℤ)] := hfermat
        have hsq := is_prime_squarings_prime n hn k ((k : ℤ).toNat + 1) k _ 1 (by simp)
          hk (by ring) (Int.emod_nonneg _ (by omega)) (Int.emod_lt_of_pos _ (by omega))
          hy.1 hpow
        rw [hsq]
        simp only [ne_eq, not_true_eq_false, if_false]
        exact hnext
      · exact hnext

/-- C6: for a prime `n`, any iteration count and any random state, `is_prime` never answers
`false`, and it answers `true` as soon as the random state holds the `iters - 1` draws of the
rounds. -/
theorem is_prime_of_prime (n : ℕ) (hn : n.Prime) (iters : ℕ) (state : RandState) :
    (∀ res, is_prime n iters state = some res → res.1 = true) ∧
      (iters - 1 ≤ state.length → ∃ state1, is_prime n iters state = some (true, state1)) := by
  have h2 := hn.two_le
  by_cases hsmall : n = 2 ∨ n = 3
  · have hres : is_prime n iters state = some (true, state) := by
      rcases hsmall with h | h <;> subst h <;> simp [is_prime]
    rw [hres]
    exact ⟨fun res h => by cases h; rfl, fun _ => ⟨state, rfl⟩⟩
  · have h4 : n ≠ 4 := by
      rintro rfl
      exact absurd hn (by norm_num)
    have h5 : 5 ≤ n := by omega
    have h5z : (5 : ℤ) ≤ n := by exact_mod_cast h5
    obtain ⟨k, r, hres, hpow, hodd, hpos, hk⟩ :=
      is_prime_split_spec (n : ℤ).toNat 0 ((n : ℤ) - 1) (by omega) (by omega)
    have hnodd : ((n : ℤ) - 1) % 2 = 0 := by
      rcases hn.eq_two_or_odd with h | h
      · omega
      · omega
    have hrounds := is_prime_rounds_prime n hn h5 k r (hk hnodd) hpos.le hpow (iters - 1) state
    have hres1 : is_prime n iters state =
        if iters - 1 ≤ state.length then some (true, state.drop (iters - 1)) else none := by
      rw [is_prime, if_neg (by omega), if_neg (by omega), hres]
      simpa using hrounds
    rw [hres1]
    constructor
    · intro res h
      split_ifs at h
      cases h
      rfl
    · intro h
      exact ⟨_, if_pos h⟩

theorem is_prime_of_prime_witness :
    (∀ res, is_prime ((7 : ℕ) : ℤ) 3 [0, 5] = some res → res.1 = true) ∧
      (3 - 1 ≤ [0, 5].length → ∃ state1, is_prime ((7 : ℕ) : ℤ) 3 [0, 5] = some (true, state1)) :=
  is_prime_of_prime 7 (by norm_num) 3 [0, 5]


/-! ## make_prime and rsa_make_pub -/

theorem mpz_urandomb_range (state : RandState) (bits : ℕ) (p : ℤ) (state1 : RandState)
    (h : mpz_urandomb state bits = some (p, state1)) : 0 ≤ p ∧ p < 2 ^ bits := by
  cases state with
  | nil => simp [mpz_urandomb] at h
  | cons x rest =>
    simp only [mpz_urandomb, Option.some.injEq, Prod.mk.injEq] at h
    obtain ⟨h1, _⟩ := h
    subst h1
    refine ⟨Int.natCast_nonneg _, ?_⟩
    have : x % 2 ^ bits < 2 ^ bits := Nat.mod_lt _ (by positivity)
    exact_mod_cast this

theorem is_prime_true_two_le (n : ℤ) (iters : ℕ) (state state1 : RandState)
    (h : is_prime n iters state = some (true, state1)) : 2 ≤ n := by
  by_contra hlt
  rw [is_prime, if_pos (Or.inl (by omega))] at h
  simp at h

theorem make_prime_loop_spec : ∀ (fuel : ℕ) (p : ℤ) (state : RandState) (bits iters : ℕ)
    (res : ℤ) (state1 : RandState), 0 ≤ p → p < 2 ^ bits →
    make_prime_loop fuel p state bits iters = some (res, state1) →
    (∃ state0, is_prime res iters state0 = some (true, state1)) ∧
      ¬ (mpz_sizeinbase2 res < (bits + 2 ^ 64 - 1) % 2 ^ 64) ∧ 0 ≤ res ∧ res < 2 ^ bits := by
  intro fuel
  induction fuel with
  | zero => intro p state bits iters res state1 _ _ h; simp [make_prime_loop] at h
  | succ fuel ih =>
    intro p state bits iters res state1 hp0 hp1 h
    rw [make_prime_loop] at h
    split_ifs at h with hsize
    · cases hdraw : mpz_urandomb state bits with
      | none => simp [hdraw] at h
      | some pr =>
        obtain ⟨p1, st1⟩ := pr
        simp only [hdraw] at h
        obtain ⟨h0, h1⟩ := mpz_urandomb_range _ _ _ _ hdraw
        exact ih p1 st1 bits iters res state1 h0 h1 h
    · cases hprime : is_prime p iters state with
      | none => simp [hprime] at h
      | some pr =>
        obtain ⟨ok, st1⟩ := pr
        cases ok with
        | true =>
          simp only [hprime, Option.some.injEq, Prod.mk.injEq] at h
          obtain ⟨h1, h2⟩ := h
          subst h1 h2
          exact ⟨⟨state, hprime⟩, hsize, hp0, hp1⟩
        | false =>
          simp only [hprime] at h
          cases hdraw : mpz_urandomb st1 bits with
          | none => simp [hdraw] at h
          | some pr1 =>
            obtain ⟨p1, st2⟩ := pr1
            simp only [hdraw] at h
            obtain ⟨h0, h1⟩ := mpz_urandomb_range _ _ _ _ hdraw
            exact ih p1 st2 bits iters res state1 h0 h1 h

theorem make_prime_spec (state : RandState) (bits iters : ℕ) (res : ℤ) (state1 : RandState)
    (h : make_prime state bits iters = some (res, state1)) :
    (∃ state0, is_prime res iters state0 = some (true, state1)) ∧
      ¬ (mpz_sizeinbase2 res < (bits + 2 ^ 64 - 1) % 2 ^ 64) ∧ 0 ≤ res ∧ res < 2 ^ bits := by
  rw [make_prime] at h
  cases hdraw : mpz_urandomb state bits with
  | none => simp [hdraw] at h
  | some pr =>
    obtain ⟨p, st1⟩ := pr
    simp only [hdraw] at h
    obtain ⟨h0, h1⟩ := mpz_urandomb_range _ _ _ _ hdraw
    exact make_prime_loop_spec _ p st1 bits iters res state1 h0 h1 h

theorem rsa_make_pub_exponent_spec : ∀ (state : RandState) (nbits : ℕ) (totient e : ℤ)
    (state1 : RandState), 0 ≤ totient →
    rsa_make_pub_exponent state nbits totient = some (e, state1) →
    0 ≤ e ∧ e < 2 ^ nbits ∧ Int.gcd e totient = 1 := by
  intro state
  induction state with
  | nil => intro nbits totient e state1 _ h; simp [rsa_make_pub_exponent] at h
  | cons x rest ih =>
    intro nbits totient e state1 ht h
    rw [rsa_make_pub_exponent] at h
    simp only [gcd_eq _ totient (Int.natCast_nonneg _) ht] at h
    split_ifs at h with hd
    · simp only [Option.some.injEq, Prod.mk.injEq] at h
      obtain ⟨h1, _⟩ := h
      subst h1
      refine ⟨Int.natCast_nonneg _, ?_, by exact_mod_cast hd⟩
      have : x % 2 ^ nbits < 2 ^ nbits := Nat.mod_lt _ (by positivity)
      exact_mod_cast this
    · exact ih nbits totient e state1 ht h

theorem rsa_make_pub_spec (random : ℕ) (state : RandState) (nbits iters : ℕ) (p q n e : ℤ)
    (state1 : RandState)
    (h : rsa_make_pub random state nbits iters = some (p, q, n, e, state1)) :
    2 ≤ p ∧ 2 ≤ q ∧ n = p * q ∧ 0 ≤ e ∧ e < 2 ^ nbits ∧ Int.gcd e ((p - 1) * (q - 1)) = 1 := by
  rw [rsa_make_pub] at h
  split at h
  · simp at h
  · dsimp only at h
    split at h
    · simp at h
    · rename_i p1 st1 hp
      split at h
      · simp at h
      · rename_i q1 st2 hq
        split at h
        · simp at h
        · rename_i e1 st3 he
          simp only [Option.some.injEq, Prod.mk.injEq] at h
          obtain ⟨h1, h2, h3, h4, _⟩ := h
          subst h1 h2 h3 h4
          obtain ⟨⟨sp, hpp⟩, _⟩ := make_prime_spec _ _ _ _ _ hp
          obtain ⟨⟨sq, hqq⟩, _⟩ := make_prime_spec _ _ _ _ _ hq
          have hp2 := is_prime_true_two_le _ _ _ _ hpp
          have hq2 := is_prime_true_two_le _ _ _ _ hqq
          obtain ⟨g1, g2, g3⟩ := rsa_make_pub_exponent_spec _ _ _ _ _ (by nlinarith) he
          exact ⟨hp2, hq2, rfl, g1, g2, g3⟩

/-! ## Claims on the number-theory functions -/

/-- C4: for `a ≥ 0` (also `a ≥ n`) and `n > 1` with `gcd (a, n) = 1`, `mod_inverse (a, n)`
returns a value `i` with `0 ≤ i < n` and `(i * a) mod n = 1`. -/
theorem mod_inverse_normalised (a n : ℤ) (ha : 0 ≤ a) (hn : 1 < n) (hg : Int.gcd a n = 1) :
    ∃ i, mod_inverse a n = some i ∧ 0 ≤ i ∧ i < n ∧ (i * a) % n = 1 :=
  mod_inverse_coprime a n ha hn hg

theorem mod_inverse_normalised_witness :
    (0 : ℤ) ≤ 23 ∧ (1 : ℤ) < 20 ∧ Int.gcd 23 20 = 1 ∧
      ∃ i, mod_inverse 23 20 = some i ∧ 0 ≤ i ∧ i < 20 ∧ (i * 23) % 20 = 1 :=
  ⟨by decide, by decide, by decide,
    mod_inverse_normalised 23 20 (by decide) (by decide) (by decide)⟩

/-- C5: for every integer base `b`, exponent `d ≥ 0` and modulus `m > 1`, `pow_mod (b, d, m)`
returns `b ^ d mod m`, the residue in `[0, m)`. -/
theorem pow_mod_modular_power (b d m : ℤ) (hd : 0 ≤ d) (hm : 1 < m) :
    ∃ r, pow_mod b d m = some r ∧ r = b ^ d.toNat % m ∧ 0 ≤ r ∧ r < m :=
  ⟨_, pow_mod_eq b d m hd hm, rfl, Int.emod_nonneg _ (by omega),
    Int.emod_lt_of_pos _ (by omega)⟩

theorem pow_mod_modular_power_witness :
    (0 : ℤ) ≤ 13 ∧ (1 : ℤ) < 497 ∧ pow_mod 4 13 497 = some 445 ∧
      ∃ r, pow_mod 4 13 497 = some r ∧ r = 4 ^ (13 : ℤ).toNat % 497 ∧ 0 ≤ r ∧ r < 497 :=
  ⟨by decide, by decide, by decide,
    pow_mod_modular_power 4 13 497 (by decide) (by decide)⟩

/-! ## Claims on key generation -/

/-- C7 (failing input): asked for 3 bits, with the random state producing the candidate 3,
`make_prime` returns 3 for every `iters`, a value of 2 bits; asked for 8 bits with the candidate
127 it returns 127, a value of 7 bits.  The loop only rejects candidates of fewer than
`bits - 1` bits. -/
theorem make_prime_one_bit_short :
    (∀ iters, make_prime [3] 3 iters = some (3, [])) ∧ mpz_sizeinbase2 3 = 2 ∧
      make_prime [127, 0] 8 2 = some (127, []) ∧ mpz_sizeinbase2 127 = 7 :=
  ⟨fun _ => rfl, by decide, by decide, by decide⟩

/-- C8 (failing input): with `nbits = 4`, `random ()` returning 1 and the random state
producing the candidates 2 and 3 and the exponent 1, `rsa_make_pub` returns `p = 2`, `q = 3` and
`n = 6`, whose bit length 3 is below `nbits`. -/
theorem rsa_make_pub_modulus_short :
    rsa_make_pub 1 [2, 3, 1] 4 50 = some (2, 3, 6, 1, []) ∧ mpz_sizeinbase2 6 < 4 :=
  ⟨by decide, by decide⟩

/-- C9 (counterexample): `rsa_make_pub` can return an exponent that is not below the totient
(`e = 11` for `p = 3`, `q = 5`, totient 8) and it can return `e = 1`. -/
theorem rsa_make_pub_exponent_outside :
    rsa_make_pub 1 [3, 5, 0, 11] 4 2 = some (3, 5, 15, 11, []) ∧
      ¬ ((1 : ℤ) < 11 ∧ (11 : ℤ) < (3 - 1) * (5 - 1)) ∧
      rsa_make_pub 1 [3, 5, 0, 1] 4 2 = some (3, 5, 15, 1, []) ∧
      ¬ ((1 : ℤ) < 1 ∧ (1 : ℤ) < (3 - 1) * (5 - 1)) :=
  ⟨by decide, by decide, by decide, by decide⟩

/-- C9 (amended): for every outcome of `rsa_make_pub (nbits, iters)` the exponent `e`
satisfies `0 ≤ e < 2 ^ nbits`, and `e = 0` only when `(p - 1) (q - 1) = 1`. -/
theorem rsa_make_pub_exponent_range (random : ℕ) (state : RandState) (nbits iters : ℕ)
    (p q n e : ℤ) (state1 : RandState)
    (h : rsa_make_pub random state nbits iters = some (p, q, n, e, state1)) :
    0 ≤ e ∧ e < 2 ^ nbits ∧ (e = 0 → (p - 1) * (q - 1) = 1) := by
  obtain ⟨hp, hq, _, h0, h1, hg⟩ := rsa_make_pub_spec random state nbits iters p q n e state1 h
  refine ⟨h0, h1, fun he => ?_⟩
  rw [he, Int.gcd_zero_left] at hg
  have hpos : 0 ≤ (p - 1) * (q - 1) := by nlinarith
  omega

theorem rsa_make_pub_exponent_range_witness :
    rsa_make_pub 2 [13, 4, 29, 10, 6, 353] 8 2 = some (13, 29, 377, 97, []) ∧
      (0 : ℤ) ≤ 97 ∧ (97 : ℤ) < 2 ^ 8 ∧ ((97 : ℤ) = 0 → ((13 : ℤ) - 1) * (29 - 1) = 1) :=
  ⟨by decide,
    rsa_make_pub_exponent_range 2 [13, 4, 29, 10, 6, 353] 8 2 13 29 377 97 [] (by decide)⟩

/-- C10: for every outcome of `rsa_make_pub (nbits, iters)`, `n = p * q` and
`gcd (e, (p - 1) (q - 1)) = 1`. -/
theorem rsa_make_pub_consistent (random : ℕ) (state : RandState) (nbits iters : ℕ)
    (p q n e : ℤ) (state1 : RandState)
    (h : rsa_make_pub random state nbits iters = some (p, q, n, e, state1)) :
    n = p * q ∧ Int.gcd e ((p - 1) * (q - 1)) = 1 := by
  obtain ⟨_, _, hn, _, _, hg⟩ := rsa_make_pub_spec random state nbits iters p q n e state1 h
  exact ⟨hn, hg⟩

theorem rsa_make_pub_consistent_witness :
    rsa_make_pub 3 [23, 7, 11, 1, 12, 5, 9] 8 2 = some (23, 11, 253, 9, []) ∧
      (253 : ℤ) = 23 * 11 ∧ Int.gcd 9 (((23 : ℤ) - 1) * (11 - 1)) = 1 :=
  ⟨by decide,
    rsa_make_pub_consistent 3 [23, 7, 11, 1, 12, 5, 9] 8 2 23 11 253 9 [] (by decide)⟩


/-! ## A 64-bit key and the file functions -/

theorem zmod_pow_of_pow_mod (p : ℕ) (hp : 1 < p) (a d v : ℤ) (hd : 0 ≤ d)
    (h : pow_mod a d p = some v) : (a : ZMod p) ^ d.toNat = (v : ZMod p) := by
  rw [pow_mod_eq a d p hd (by exact_mod_cast hp)] at h
  simp only [Option.some.injEq] at h
  rw [← h, ZMod.intCast_mod, Int.cast_pow]

theorem zmod_intCast_ne_one (p : ℕ) (v : ℤ) (h : v % p ≠ 1 % p) : (v : ZMod p) ≠ 1 := by
  intro hv
  apply h
  have : (v : ZMod p) = ((1 : ℤ) : ZMod p) := by rw [hv, Int.cast_one]
  exact (ZMod.intCast_eq_intCast_iff v 1 p).mp this

theorem prime_3221225473 : Nat.Prime 3221225473 := by
  refine lucas_primality 3221225473 ((5 : ℤ) : ZMod 3221225473) ?_ ?_
  · have h := zmod_pow_of_pow_mod 3221225473 (by decide) 5 3221225472 1 (by decide) (by decide)
    rw [Int.cast_one] at h
    exact h
  · intro r hr hdvd
    have hfac : 3221225473 - 1 = 2 ^ 30 * 3 := by norm_num
    rw [hfac] at hdvd
    have hcases : r = 2 ∨ r = 3 := by
      rcases (Nat.Prime.dvd_mul hr).mp hdvd with h | h
      · exact Or.inl ((Nat.prime_dvd_prime_iff_eq hr Nat.prime_two).mp (hr.dvd_of_dvd_pow h))
      · exact Or.inr ((Nat.prime_dvd_prime_iff_eq hr Nat.prime_three).mp h)
    rcases hcases with rfl | rfl
    · have h := zmod_pow_of_pow_mod 3221225473 (by decide) 5 1610612736 3221225472
        (by decide) (by decide)
      have he : (3221225473 - 1) / 2 = (1610612736 : ℤ).toNat := by decide
      rw [he, h]
      exact zmod_intCast_ne_one _ _ (by decide)
    · have h := zmod_pow_of_pow_mod 3221225473 (by decide) 5 1073741824 1610563584
        (by decide) (by decide)
      have he : (3221225473 - 1) / 3 = (1073741824 : ℤ).toNat := by decide
      rw [he, h]
      exact zmod_intCast_ne_one _ _ (by decide)


theorem prime_3489660929 : Nat.Prime 3489660929 := by
  refine lucas_primality 3489660929 ((3 : ℤ) : ZMod 3489660929) ?_ ?_
  · have h := zmod_pow_of_pow_mod 3489660929 (by decide) 3 3489660928 1 (by decide) (by decide)
    rw [Int.cast_one] at h
    exact h
  · intro r hr hdvd
    have hfac : 3489660929 - 1 = 2 ^ 28 * 13 := by norm_num
    rw [hfac] at hdvd
    have hcases : r = 2 ∨ r = 13 := by
      rcases (Nat.Prime.dvd_mul hr).mp hdvd with h | h
      · exact Or.inl ((Nat.prime_dvd_prime_iff_eq hr Nat.prime_two).mp (hr.dvd_of_dvd_pow h))
      · exact Or.inr ((Nat.prime_dvd_prime_iff_eq hr (by norm_num)).mp h)
    rcases hcases with rfl | rfl
    · have h := zmod_pow_of_pow_mod 3489660929 (by decide) 3 1744830464 3489660928
        (by decide) (by decide)
      have he : (3489660929 - 1) / 2 = (1744830464 : ℤ).toNat := by decide
      rw [he, h]
      exact zmod_intCast_ne_one _ _ (by decide)
    · have h := zmod_pow_of_pow_mod 3489660929 (by decide) 3 268435456 1475084974
        (by decide) (by decide)
      have he : (3489660929 - 1) / 13 = (268435456 : ℤ).toNat := by decide
      rw [he, h]
      exact zmod_intCast_ne_one _ _ (by decide)

set_option maxRecDepth 100000

/-- C2 (failing input): `p = 3221225473` and `q = 3489660929` are distinct primes, `n = p * q`
has 64 bits (block size `k = 7`), `e = 65537` is coprime to `(p - 1) (q - 1)` and
`rsa_make_priv` returns `d = 8358399437717831681`.  On the two-byte file `68 69`
`rsa_encrypt_file` writes a single line, the encryption of the block `FF 68`, and
`rsa_decrypt_file` turns that line into the one-byte file `68`: the last byte is lost.  On the
one-byte file `68` it writes no line at all. -/
theorem rsa_file_round_trip_short_file :
    Nat.Prime 3221225473 ∧ Nat.Prime 3489660929 ∧
      mpz_sizeinbase2 (3221225473 * 3489660929) = 64 ∧
      Int.gcd 65537 ((3221225473 - 1) * (3489660929 - 1)) = 1 ∧
      rsa_make_priv 65537 3221225473 3489660929 = some 8358399437717831681 ∧
      rsa_encrypt_file [0x68, 0x69] (3221225473 * 3489660929) 65537
        = some [1361093801187790654] ∧
      rsa_decrypt_file [1361093801187790654] (3221225473 * 3489660929) 8358399437717831681
        = some [0x68] ∧
      rsa_encrypt_file [0x68] (3221225473 * 3489660929) 65537 = some [] :=
  ⟨prime_3221225473, prime_3489660929, by decide, by decide, by decide, by decide, by decide,
    by decide⟩

/-! ## Further claims on the number-theory functions -/

theorem mod_inverse_no_inverse (a n : ℤ) (ha : 0 ≤ a) (hn : 0 ≤ n) (hg : 1 < Int.gcd a n) :
    mod_inverse a n = some 0 := by
  by_cases ha0 : a = 0
  · subst ha0
    rw [Int.gcd_zero_left] at hg
    have hn1 : 1 < n := by omega
    simp [mod_inverse, mod_inverse_loop, hn1]
  · have hapos : 0 < a := lt_of_le_of_ne ha (Ne.symm ha0)
    by_cases hn0 : n = 0
    · subst hn0
      rw [Int.gcd_zero_right] at hg
      have ha1 : 1 < a := by omega
      have hfuel : a.natAbs + 1 = (a.natAbs - 1) + 1 + 1 := by omega
      have hq : Int.fdiv 0 a = 0 := by
        rw [Int.fdiv_eq_ediv _ ha]
        simp
      simp only [mod_inverse]
      rw [hfuel, mod_inverse_loop, if_pos ha0]
      simp only [hq, zero_mul, sub_zero]
      rw [mod_inverse_loop]
      simp [ha1]
    · have hnpos : 0 < n := lt_of_le_of_ne hn (Ne.symm hn0)
      by_cases hne : a = n
      · subst hne
        rw [Int.gcd_self] at hg
        have ha1 : 1 < a := by omega
        have hfuel : a.natAbs + 1 = (a.natAbs - 1) + 1 + 1 := by omega
        have hq : Int.fdiv a a = 1 := by
          rw [Int.fdiv_eq_ediv _ ha]
          exact Int.ediv_self ha0
        simp only [mod_inverse]
        rw [hfuel, mod_inverse_loop, if_pos ha0]
        simp only [hq, one_mul, sub_self]
        rw [mod_inverse_loop]
        simp [ha1]
      · obtain ⟨r1, t1, hloop, hr1, _, _, _⟩ := mod_inverse_entry a n ha hnpos hne
        have hr : 1 < r1 := by
          rw [hr1, Int.gcd_comm]
          exact_mod_cast hg
        simp [mod_inverse, hloop, hr]

/-- C14: for `a ≥ 0` and `n ≥ 0` with `gcd (a, n) > 1`, `mod_inverse (a, n)` returns 0; hence
`rsa_make_priv (e, p, q)` returns `d = 0` when `gcd (e, (p - 1) (q - 1)) > 1` (here `a` is the
exponent and `n` the totient). -/
theorem mod_inverse_sentinel (a n : ℤ) (ha : 0 ≤ a) (hn : 0 ≤ n) (hg : 1 < Int.gcd a n) :
    mod_inverse a n = some 0 ∧
      ∀ p q : ℤ, (p - 1) * (q - 1) = n → rsa_make_priv a p q = some 0 := by
  refine ⟨mod_inverse_no_inverse a n ha hn hg, ?_⟩
  intro p q hpq
  rw [rsa_make_priv, hpq]
  exact mod_inverse_no_inverse a n ha hn hg

theorem mod_inverse_sentinel_witness :
    (0 : ℤ) ≤ 4 ∧ (0 : ℤ) ≤ 20 ∧ 1 < Int.gcd 4 20 ∧ mod_inverse 4 20 = some 0 ∧
      ∀ p q : ℤ, (p - 1) * (q - 1) = 20 → rsa_make_priv 4 p q = some 0 :=
  ⟨by decide, by decide, by decide, mod_inverse_sentinel 4 20 (by decide) (by decide) (by decide)⟩

/-- C15: for `a ≥ 0` and `b ≥ 0` the loop of `gcd` terminates and `gcd (a, b)` is the greatest
common divisor of `a` and `b`; in particular `gcd (a, 0) = a` and `gcd (0, b) = b`. -/
theorem gcd_greatest_common_divisor (a b : ℤ) (ha : 0 ≤ a) (hb : 0 ≤ b) :
    gcd a b = some (Int.gcd a b : ℤ) ∧ gcd a 0 = some a ∧ gcd 0 b = some b := by
  refine ⟨gcd_eq a b ha hb, ?_, ?_⟩
  · rw [gcd_eq a 0 ha (le_refl 0), Int.gcd_zero_right, Int.natCast_natAbs, abs_of_nonneg ha]
  · rw [gcd_eq 0 b (le_refl 0) hb, Int.gcd_zero_left, Int.natCast_natAbs, abs_of_nonneg hb]

theorem gcd_greatest_common_divisor_witness :
    (0 : ℤ) ≤ 12 ∧ (0 : ℤ) ≤ 18 ∧ gcd 12 18 = some 6 ∧
      (gcd 12 18 = some (Int.gcd 12 18 : ℤ) ∧ gcd 12 0 = some 12 ∧ gcd 0 18 = some 18) :=
  ⟨by decide, by decide, by decide, gcd_greatest_common_divisor 12 18 (by decide) (by decide)⟩

/-- C17: for every `iters` and every random state, `is_prime (n, iters)` returns false when
`n ≤ 1` or `n = 4` and true when `n = 2` or `n = 3`, and the random state is left as it was: no
base is drawn. -/
theorem is_prime_fast_paths (n : ℤ) (iters : ℕ) (state : RandState) :
    (n ≤ 1 ∨ n = 4 → is_prime n iters state = some (false, state)) ∧
      (n = 2 ∨ n = 3 → is_prime n iters state = some (true, state)) := by
  constructor
  · intro h
    rw [is_prime, if_pos h]
  · intro h
    have h1 : ¬ (n ≤ 1 ∨ n = 4) := by omega
    rw [is_prime, if_neg h1, if_pos h]

theorem is_prime_fast_paths_witness :
    is_prime 4 50 [7, 8] = some (false, [7, 8]) ∧ is_prime (-3) 50 [7, 8] = some (false, [7, 8]) ∧
      is_prime 3 50 [7, 8] = some (true, [7, 8]) :=
  ⟨(is_prime_fast_paths 4 50 [7, 8]).1 (by decide),
    (is_prime_fast_paths (-3) 50 [7, 8]).1 (by decide),
    (is_prime_fast_paths 3 50 [7, 8]).2 (by decide)⟩

theorem is_prime_rounds_draws : ∀ (rounds : ℕ) (n s r : ℤ) (state : RandState) (b : Bool)
    (state1 : RandState), is_prime_rounds rounds n s r state = some (b, state1) →
    ∃ used : List ℕ, state = used ++ state1 ∧ used.length ≤ rounds := by
  intro rounds
  induction rounds with
  | zero =>
    intro n s r state b state1 h
    simp only [is_prime_rounds, Option.some.injEq, Prod.mk.injEq] at h
    exact ⟨[], by simp [h.2], by simp⟩
  | succ rounds ih =>
    intro n s r state b state1 h
    cases state with
    | nil => simp [is_prime_rounds, mpz_urandomm] at h
    | cons x rest =>
      have hrec : ∀ b1 st1, is_prime_rounds rounds n s r rest = some (b1, st1) →
          ∃ used : List ℕ, x :: rest = used ++ st1 ∧ used.length ≤ rounds + 1 := by
        intro b1 st1 h1
        obtain ⟨used, hused, hlen⟩ := ih n s r rest b1 st1 h1
        exact ⟨x :: used, by simp [hused], by simpa using hlen⟩
      have hstop : ∀ b1 st1, (some (false, rest) : Option (Bool × RandState)) = some (b1, st1) →
          ∃ used : List ℕ, x :: rest = used ++ st1 ∧ used.length ≤ rounds + 1 := by
        intro b1 st1 h1
        simp only [Option.some.injEq, Prod.mk.injEq] at h1
        exact ⟨[x], by simp [h1.2], by simp⟩
      rw [is_prime_rounds] at h
      simp only [mpz_urandomm] at h
      split at h
      · simp at h
      · split at h
        · split at h
          · simp at h
          · exact hstop _ _ h
          · split at h
            · exact hstop _ _ h
            · exact hrec _ _ h
        · exact hrec _ _ h

/-! ## Tampered signatures -/

theorem totient_inverse_nat (p q : ℕ) (hp : p.Prime) (hq : q.Prime) (x y : ℤ)
    (hx : 0 ≤ x) (hy : 0 ≤ y) (hxy : (x * y) % (((p : ℤ) - 1) * ((q : ℤ) - 1)) = 1) :
    (x.toNat * y.toNat) % ((p - 1) * (q - 1)) = 1 := by
  have : (((x.toNat * y.toNat) % ((p - 1) * (q - 1)) : ℕ) : ℤ) = 1 := by
    rw [Int.natCast_mod, totient_cast p q hp hq, Nat.cast_mul, Int.toNat_of_nonneg hx,
      Int.toNat_of_nonneg hy, hxy]
  exact_mod_cast this

/-- C16: for distinct primes `p`, `q`, an exponent `e` coprime to `(p-1)(q-1)`, the `d` of
`rsa_make_priv`, every `m` with `0 ≤ m < p * q` and `s = rsa_sign (m, d, n)`, `rsa_verify`
rejects the signature `s + 1`. -/
theorem rsa_verify_tampered (p q : ℕ) (hp : p.Prime) (hq : q.Prime) (hpq : p ≠ q) (e : ℕ)
    (m : ℤ) (hgcd : Int.gcd (e : ℤ) (((p : ℤ) - 1) * ((q : ℤ) - 1)) = 1)
    (hm0 : 0 ≤ m) (hmn : m < (p : ℤ) * (q : ℤ)) :
    ∃ d s, rsa_make_priv e p q = some d ∧ rsa_sign m d ((p : ℤ) * (q : ℤ)) = some s ∧
      rsa_verify m (s + 1) e ((p : ℤ) * (q : ℤ)) = some false := by
  have he : (0 : ℤ) ≤ e := Int.natCast_nonneg e
  have hn := modulus_gt_one p q hp hq
  obtain ⟨d, hd, hd0, _, hinv⟩ :=
    mod_inverse_coprime e _ he (totient_gt_one p q hp hq hpq) hgcd
  obtain ⟨s, hs, hver⟩ := pow_mod_pow_mod p q hp hq hpq d e m hd0 he hinv hm0 hmn
  refine ⟨d, s, hd, hs, ?_⟩
  rw [pow_mod_eq s e _ he hn] at hver
  simp only [Option.some.injEq] at hver
  have hed : ((e : ℤ).toNat * d.toNat) % ((p - 1) * (q - 1)) = 1 :=
    totient_inverse_nat p q hp hq e d he hd0 (by rw [mul_comm]; exact hinv)
  have hne : (s + 1) ^ (e : ℤ).toNat % ((p : ℤ) * (q : ℤ)) ≠ m := by
    intro hbad
    have hcong : (s + 1) ^ (e : ℤ).toNat ≡ s ^ (e : ℤ).toNat [ZMOD ((p : ℤ) * (q : ℤ))] := by
      rw [Int.ModEq, hbad, hver]
    have hpow := hcong.pow d.toNat
    rw [← pow_mul, ← pow_mul] at hpow
    have h1 := rsa_identity p q hp hq hpq _ _ hed (s + 1)
    have h2 := rsa_identity p q hp hq hpq _ _ hed s
    have h3 : s + 1 ≡ s [ZMOD ((p : ℤ) * (q : ℤ))] := (h1.symm.trans hpow).trans h2
    have h4 := h3.dvd
    have h5 : s - (s + 1) = -1 := by ring
    rw [h5] at h4
    have h6 := Int.le_of_dvd (by decide) ((dvd_neg).mp h4)
    omega
  rw [rsa_verify, pow_mod_eq (s + 1) e _ he hn]
  simp only [hne, if_false]

theorem rsa_verify_tampered_witness :
    ∃ d s, rsa_make_priv ((7 : ℕ) : ℤ) (5 : ℕ) (11 : ℕ) = some d ∧
      rsa_sign 42 d (((5 : ℕ) : ℤ) * ((11 : ℕ) : ℤ)) = some s ∧
      rsa_verify 42 (s + 1) ((7 : ℕ) : ℤ) (((5 : ℕ) : ℤ) * ((11 : ℕ) : ℤ)) = some false :=
  rsa_verify_tampered 5 11 (by norm_num) (by norm_num) (by decide) 7 42 (by decide) (by decide)
    (by decide)

/-! ## Bit lengths and byte strings -/

theorem bit_count_bounds : ∀ (fuel m : ℕ), m ≤ fuel → 0 < m →
    2 ^ (bit_count fuel m - 1) ≤ m ∧ m < 2 ^ bit_count fuel m ∧ 1 ≤ bit_count fuel m := by
  intro fuel
  induction fuel with
  | zero => intro m h1 h2; omega
  | succ fuel ih =>
    intro m hle hpos
    rw [bit_count, if_neg (by omega)]
    rcases Nat.eq_zero_or_pos (m / 2) with hz | hp
    · have hm1 : m = 1 := by omega
      have hc : bit_count fuel (m / 2) = 0 := by
        rw [hz]
        cases fuel <;> simp [bit_count]
      rw [hc, hm1]
      simp
    · obtain ⟨h1, h2, h3⟩ := ih (m / 2) (by omega) hp
      refine ⟨?_, ?_, by omega⟩
      · have hpow : 2 ^ (bit_count fuel (m / 2) + 1 - 1) = 2 * 2 ^ (bit_count fuel (m / 2) - 1) := by
          rw [← pow_succ']
          congr 1
          omega
        rw [hpow]
        omega
      · rw [pow_succ]
        omega

theorem mpz_sizeinbase2_bounds (n : ℤ) (hn : 0 < n) :
    (2 : ℤ) ^ (mpz_sizeinbase2 n - 1) ≤ n ∧ n < 2 ^ mpz_sizeinbase2 n ∧ 1 ≤ mpz_sizeinbase2 n := by
  obtain ⟨h1, h2, h3⟩ := bit_count_bounds n.natAbs n.natAbs (le_refl _) (by omega)
  have hsize : mpz_sizeinbase2 n = bit_count n.natAbs n.natAbs := by
    rw [mpz_sizeinbase2, if_neg (by omega)]
  have hcast : ((n.natAbs : ℕ) : ℤ) = n := by
    rw [Int.natCast_natAbs, abs_of_pos hn]
  rw [hsize]
  refine ⟨?_, ?_, h3⟩
  · rw [← hcast]
    exact_mod_cast h1
  · rw [← hcast]
    exact_mod_cast h2

theorem mpz_sizeinbase2_le (n : ℤ) (b : ℕ) (hn : 0 < n) (hlt : n < 2 ^ b) :
    mpz_sizeinbase2 n ≤ b := by
  obtain ⟨h1, _, h3⟩ := mpz_sizeinbase2_bounds n hn
  by_contra hgt
  have hle : b ≤ mpz_sizeinbase2 n - 1 := by omega
  have : (2 : ℤ) ^ b ≤ 2 ^ (mpz_sizeinbase2 n - 1) := pow_le_pow_right₀ (by decide) hle
  omega

theorem mpz_import_append (block : List Byte) (b : Byte) :
    mpz_import (block ++ [b]) = mpz_import block * 256 + (b.val : ℤ) := by
  simp [mpz_import, List.foldl_append]

theorem mpz_import_bounds : ∀ (block : List Byte),
    0 ≤ mpz_import block ∧ mpz_import block < 256 ^ block.length := by
  intro block
  induction block using List.reverseRecOn with
  | nil => simp [mpz_import]
  | append_singleton block b ih =>
    obtain ⟨h0, h1⟩ := ih
    have hb : (b.val : ℤ) < 256 := by exact_mod_cast b.isLt
    have hb0 : (0 : ℤ) ≤ (b.val : ℤ) := Int.natCast_nonneg _
    rw [mpz_import_append, List.length_append, List.length_singleton, pow_succ]
    constructor
    · positivity
    · nlinarith

theorem mpz_import_sentinel_pos (payload : List Byte) :
    0 < mpz_import ((255 : Byte) :: payload) := by
  induction payload using List.reverseRecOn with
  | nil => decide
  | append_singleton payload b ih =>
    have hb0 : (0 : ℤ) ≤ (b.val : ℤ) := Int.natCast_nonneg _
    rw [← List.cons_append, mpz_import_append]
    positivity

theorem mpz_export_digits_zero (fuel : ℕ) (acc : List Byte) :
    mpz_export_digits fuel 0 acc = acc := by
  cases fuel <;> simp [mpz_export_digits]

/-- Exporting the imported value of a byte string that does not begin with a zero byte gives
the byte string back, in front of the accumulator. -/
theorem mpz_export_digits_import : ∀ (block : List Byte),
    (∀ b rest, block = b :: rest → b ≠ 0) → ∀ (fuel : ℕ) (acc : List Byte),
      (mpz_import block).natAbs ≤ fuel →
      mpz_export_digits fuel (mpz_import block).natAbs acc = block ++ acc := by
  intro block
  induction block using List.reverseRecOn with
  | nil =>
    intro _ fuel acc _
    simp [mpz_import, mpz_export_digits_zero]
  | append_singleton block b ih =>
    intro hhead fuel acc hfuel
    have hb : b.val < 256 := b.isLt
    obtain ⟨h0, _⟩ := mpz_import_bounds block
    have hval : (mpz_import (block ++ [b])).natAbs = (mpz_import block).natAbs * 256 + b.val := by
      rw [mpz_import_append]
      omega
    have hhead1 : ∀ c rest, block = c :: rest → c ≠ 0 := by
      intro c rest hc
      exact hhead c (rest ++ [b]) (by simp [hc])
    have hne : (mpz_import block).natAbs * 256 + b.val ≠ 0 := by
      cases block with
      | nil =>
        have hb0 : b ≠ 0 := hhead b [] rfl
        have : b.val ≠ 0 := fun h => hb0 (Fin.ext h)
        simpa [mpz_import] using this
      | cons c rest =>
        have hc0 : c ≠ 0 := hhead1 c rest rfl
        have hpos : 0 < (mpz_import (c :: rest)).natAbs := by
          by_contra hz
          have hz0 : mpz_import (c :: rest) = 0 := by omega
          have key : ∀ (l : List Byte) (v : ℤ), 0 < v →
              0 < l.foldl (fun acc x => acc * 256 + (x.val : ℤ)) v := by
            intro l
            induction l with
            | nil => intro v hv; simpa using hv
            | cons x l ihl =>
              intro v hv
              rw [List.foldl_cons]
              apply ihl
              have hx0 : (0 : ℤ) ≤ (x.val : ℤ) := Int.natCast_nonneg _
              positivity
          have hcpos : (0 : ℤ) < (c.val : ℤ) := by
            have : c.val ≠ 0 := fun h => hc0 (Fin.ext h)
            omega
          have := key rest (0 * 256 + (c.val : ℤ)) (by simpa using hcpos)
          rw [mpz_import, List.foldl_cons] at hz0
          omega
        omega
    rw [hval] at hfuel ⊢
    cases fuel with
    | zero => omega
    | succ fuel =>
      rw [mpz_export_digits, if_neg hne]
      have hdiv : ((mpz_import block).natAbs * 256 + b.val) / 256 = (mpz_import block).natAbs := by
        omega
      have hmod : (⟨((mpz_import block).natAbs * 256 + b.val) % 256,
          Nat.mod_lt _ (by decide)⟩ : Byte) = b := by
        apply Fin.ext
        simp only []
        omega
      rw [hdiv, hmod, ih hhead1 fuel (b :: acc) (by omega)]
      simp

theorem mpz_export_import_sentinel (payload : List Byte) :
    mpz_export (mpz_import ((255 : Byte) :: payload)) = (255 : Byte) :: payload := by
  have h := mpz_export_digits_import ((255 : Byte) :: payload)
    (fun b rest hb => by
      have : b = (255 : Byte) := by
        injection hb with h1 _
        exact h1.symm
      rw [this]
      decide)
    _ [] (le_refl _)
  rw [mpz_export, h]
  simp


/-! ## The blocks of rsa_encrypt_file -/

theorem pow_mod_loop_total (m : ℤ) : ∀ (fuel : ℕ) (v p d : ℤ), d.toNat < fuel →
    ∃ r, pow_mod_loop fuel v p d m = some r := by
  intro fuel
  induction fuel with
  | zero => intro v p d h; omega
  | succ fuel ih =>
    intro v p d hfuel
    by_cases hd : 0 < d
    · rw [pow_mod_loop, if_pos hd]
      apply ih
      rw [Int.fdiv_eq_ediv _ (by decide : (0 : ℤ) ≤ 2)]
      omega
    · exact ⟨v, by rw [pow_mod_loop, if_neg hd]⟩

theorem pow_mod_total (b d m : ℤ) : ∃ r, pow_mod b d m = some r :=
  pow_mod_loop_total m _ 1 b d (Nat.lt_succ_self _)

theorem rsa_encrypt_file_payloads_succ (fuel k bytes index : ℕ) (rest : List Byte) :
    rsa_encrypt_file_payloads (fuel + 1) k bytes index rest =
      if rsa_encrypt_file_bytes_to_read k bytes index = 0 then some []
      else if 0 < (rest.take (rsa_encrypt_file_bytes_to_read k bytes index)).length then
        match rsa_encrypt_file_payloads fuel k bytes
            ((index + (rest.take (rsa_encrypt_file_bytes_to_read k bytes index)).length) % 2 ^ 64)
            (rest.drop (rsa_encrypt_file_bytes_to_read k bytes index)) with
        | none => none
        | some payloads =>
          some (rest.take (rsa_encrypt_file_bytes_to_read k bytes index) :: payloads)
      else some [rest.take (rsa_encrypt_file_bytes_to_read k bytes index)] := rfl

theorem rsa_encrypt_file_loop_succ (fuel k bytes index : ℕ) (rest : List Byte) (n e : ℤ) :
    rsa_encrypt_file_loop (fuel + 1) k bytes index rest n e =
      if rsa_encrypt_file_bytes_to_read k bytes index = 0 then some []
      else
        match rsa_encrypt (mpz_import ((255 : Byte) ::
            rest.take (rsa_encrypt_file_bytes_to_read k bytes index))) e n with
        | none => none
        | some c =>
          if 0 < (rest.take (rsa_encrypt_file_bytes_to_read k bytes index)).length then
            match rsa_encrypt_file_loop fuel k bytes
                ((index + (rest.take (rsa_encrypt_file_bytes_to_read k bytes index)).length)
                  % 2 ^ 64)
                (rest.drop (rsa_encrypt_file_bytes_to_read k bytes index)) n e with
            | none => none
            | some lines => some (c :: lines)
          else some [c] := rfl

theorem rsa_encrypt_file_payloads_total : ∀ (fuel k bytes index : ℕ) (rest : List Byte),
    rest.length < fuel → ∃ payloads, rsa_encrypt_file_payloads fuel k bytes index rest
      = some payloads := by
  intro fuel
  induction fuel with
  | zero => intro k bytes index rest h; omega
  | succ fuel ih =>
    intro k bytes index rest hfuel
    rw [rsa_encrypt_file_payloads_succ]
    generalize rsa_encrypt_file_bytes_to_read k bytes index = btr
    split_ifs with h1 h2
    · exact ⟨_, rfl⟩
    · obtain ⟨ps, hps⟩ := ih k bytes ((index + (List.take btr rest).length) % 2 ^ 64)
        (List.drop btr rest) (by
          rw [List.length_take] at h2
          rw [List.length_drop]
          omega)
      rw [hps]
      exact ⟨_, rfl⟩
    · exact ⟨_, rfl⟩

/-- Every line written by the loop of `rsa_encrypt_file` is the encryption of the block made
of `0xFF` and the payload of its pass. -/
theorem rsa_encrypt_file_loop_of_payloads (n e : ℤ) : ∀ (fuel k bytes index : ℕ)
    (rest : List Byte) (payloads : List (List Byte)),
    rsa_encrypt_file_payloads fuel k bytes index rest = some payloads →
    ∃ lines, rsa_encrypt_file_loop fuel k bytes index rest n e = some lines ∧
      List.Forall₂ (fun P c => rsa_encrypt (mpz_import ((255 : Byte) :: P)) e n = some c)
        payloads lines := by
  intro fuel
  induction fuel with
  | zero => intro k bytes index rest payloads h; simp [rsa_encrypt_file_payloads] at h
  | succ fuel ih =>
    intro k bytes index rest payloads h
    rw [rsa_encrypt_file_payloads_succ] at h
    rw [rsa_encrypt_file_loop_succ]
    generalize rsa_encrypt_file_bytes_to_read k bytes index = btr at h ⊢
    obtain ⟨c, hc⟩ := pow_mod_total (mpz_import ((255 : Byte) :: List.take btr rest)) e n
    split_ifs at h ⊢ with h1 h2
    · simp only [Option.some.injEq] at h
      subst h
      exact ⟨[], rfl, List.Forall₂.nil⟩
    · rw [rsa_encrypt, hc]
      simp only []
      cases hrec : rsa_encrypt_file_payloads fuel k bytes
          ((index + (List.take btr rest).length) % 2 ^ 64) (List.drop btr rest) with
      | none =>
        rw [hrec] at h
        simp at h
      | some ps =>
        rw [hrec] at h
        simp only [Option.some.injEq] at h
        subst h
        obtain ⟨lines, hlines, hall⟩ := ih _ _ _ _ _ hrec
        rw [hlines]
        exact ⟨c :: lines, rfl, List.Forall₂.cons hc hall⟩
    · rw [rsa_encrypt, hc]
      simp only [Option.some.injEq] at h
      subst h
      exact ⟨[c], rfl, List.Forall₂.cons hc List.Forall₂.nil⟩

theorem rsa_encrypt_file_payloads_length : ∀ (fuel k bytes index : ℕ) (rest : List Byte)
    (payloads : List (List Byte)), 1 ≤ k → rest.length ≤ bytes → bytes < 2 ^ 64 →
    rsa_encrypt_file_payloads fuel k bytes index rest = some payloads →
    ∀ P ∈ payloads, P.length + 1 ≤ k := by
  intro fuel
  induction fuel with
  | zero => intro k bytes index rest payloads _ _ _ h; simp [rsa_encrypt_file_payloads] at h
  | succ fuel ih =>
    intro k bytes index rest payloads hk hrest hbytes h
    rw [rsa_encrypt_file_payloads_succ] at h
    have hread : (List.take (rsa_encrypt_file_bytes_to_read k bytes index) rest).length + 1
        ≤ k := by
      rw [List.length_take, rsa_encrypt_file_bytes_to_read]
      split_ifs with hc
      · have : (k + 2 ^ 64 - 1) % 2 ^ 64 ≤ k - 1 := by omega
        omega
      · have : bytes < (k + 2 ^ 64 - 1) % 2 ^ 64 := by omega
        have : (k + 2 ^ 64 - 1) % 2 ^ 64 ≤ k - 1 := by omega
        omega
    generalize rsa_encrypt_file_bytes_to_read k bytes index = btr at h hread
    split_ifs at h with h1 h2
    · simp only [Option.some.injEq] at h
      subst h
      simp
    · cases hrec : rsa_encrypt_file_payloads fuel k bytes
          ((index + (List.take btr rest).length) % 2 ^ 64) (List.drop btr rest) with
      | none =>
        rw [hrec] at h
        simp at h
      | some ps =>
        rw [hrec] at h
        simp only [Option.some.injEq] at h
        subst h
        intro P hP
        rcases List.mem_cons.mp hP with rfl | hmem
        · exact hread
        · exact ih k bytes _ _ ps hk (by rw [List.length_drop]; omega) hbytes hrec P hmem
    · simp only [Option.some.injEq] at h
      subst h
      intro P hP
      rw [List.mem_singleton] at hP
      subst hP
      exact hread

theorem block_size_pow_le (n : ℤ) (hn : 0 < n) :
    (256 : ℤ) ^ ((mpz_sizeinbase2 n - 1) / 8) ≤ n := by
  obtain ⟨h1, _, _⟩ := mpz_sizeinbase2_bounds n hn
  have h256 : (256 : ℤ) = 2 ^ 8 := by norm_num
  rw [h256, ← pow_mul]
  have hle : 8 * ((mpz_sizeinbase2 n - 1) / 8) ≤ mpz_sizeinbase2 n - 1 := by omega
  exact le_trans (pow_le_pow_right₀ (by decide) hle) h1

theorem mpz_import_lt_of_length (n : ℤ) (hn : 0 < n) (block : List Byte)
    (hlen : block.length ≤ (mpz_sizeinbase2 n - 1) / 8) :
    0 ≤ mpz_import block ∧ mpz_import block < n := by
  obtain ⟨h0, h1⟩ := mpz_import_bounds block
  refine ⟨h0, lt_of_lt_of_le h1 (le_trans ?_ (block_size_pow_le n hn))⟩
  exact pow_le_pow_right₀ (by decide) hlen

/-- C12: for `n ≥ 256` and `k = (bit length of n - 1) / 8`, every big-endian value of at most
`k` bytes is non-negative and below `n`; and for every input file (of a length that `ftell`
can report) `rsa_encrypt_file` returns, each of its lines is the encryption of a block `0xFF`
followed by the at most `k - 1` bytes read by the pass, and the value `m` of that block
satisfies `0 ≤ m < n`. -/
theorem block_below_modulus (n : ℤ) (hn : 256 ≤ n) :
    (∀ block : List Byte, block.length ≤ (mpz_sizeinbase2 n - 1) / 8 →
      0 ≤ mpz_import block ∧ mpz_import block < n) ∧
    (∀ (infile : List Byte) (e : ℤ), infile.length < 2 ^ 64 →
      ∃ payloads lines,
        rsa_encrypt_file_payloads (infile.length + 1) ((mpz_sizeinbase2 n - 1) / 8)
          (infile.length % 2 ^ 64) 1 infile = some payloads ∧
        rsa_encrypt_file infile n e = some lines ∧
        List.Forall₂ (fun P c => rsa_encrypt (mpz_import ((255 : Byte) :: P)) e n = some c)
          payloads lines ∧
        ∀ P ∈ payloads, P.length + 1 ≤ (mpz_sizeinbase2 n - 1) / 8 ∧
          0 ≤ mpz_import ((255 : Byte) :: P) ∧ mpz_import ((255 : Byte) :: P) < n) := by
  have hpos : 0 < n := by omega
  have hk : 1 ≤ (mpz_sizeinbase2 n - 1) / 8 := by
    have h9 : 9 ≤ mpz_sizeinbase2 n := by
      by_contra hlt
      obtain ⟨_, h2, _⟩ := mpz_sizeinbase2_bounds n hpos
      have : (2 : ℤ) ^ mpz_sizeinbase2 n ≤ 2 ^ 8 := pow_le_pow_right₀ (by decide) (by omega)
      norm_num at this
      omega
    omega
  refine ⟨fun block hlen => mpz_import_lt_of_length n hpos block hlen, ?_⟩
  intro infile e hlen
  obtain ⟨payloads, hpay⟩ := rsa_encrypt_file_payloads_total (infile.length + 1)
    ((mpz_sizeinbase2 n - 1) / 8) (infile.length % 2 ^ 64) 1 infile (Nat.lt_succ_self _)
  obtain ⟨lines, hlines, hall⟩ := rsa_encrypt_file_loop_of_payloads n e _ _ _ _ _ _ hpay
  refine ⟨payloads, lines, hpay, ?_, hall, ?_⟩
  · rw [rsa_encrypt_file, if_neg (by omega)]
    exact hlines
  · intro P hP
    have hP1 := rsa_encrypt_file_payloads_length _ _ _ _ _ _ hk
      (by rw [Nat.mod_eq_of_lt hlen]) (Nat.mod_lt _ (by positivity)) hpay P hP
    exact ⟨hP1, mpz_import_lt_of_length n hpos _ (by simpa using hP1)⟩

theorem block_below_modulus_witness :
    (256 : ℤ) ≤ 11240984676627644417 ∧
    (∀ block : List Byte, block.length ≤ (mpz_sizeinbase2 11240984676627644417 - 1) / 8 →
      0 ≤ mpz_import block ∧ mpz_import block < 11240984676627644417) ∧
    (∀ (infile : List Byte) (e : ℤ), infile.length < 2 ^ 64 →
      ∃ payloads lines,
        rsa_encrypt_file_payloads (infile.length + 1)
          ((mpz_sizeinbase2 11240984676627644417 - 1) / 8)
          (infile.length % 2 ^ 64) 1 infile = some payloads ∧
        rsa_encrypt_file infile 11240984676627644417 e = some lines ∧
        List.Forall₂ (fun P c => rsa_encrypt (mpz_import ((255 : Byte) :: P)) e
          11240984676627644417 = some c) payloads lines ∧
        ∀ P ∈ payloads, P.length + 1 ≤ (mpz_sizeinbase2 11240984676627644417 - 1) / 8 ∧
          0 ≤ mpz_import ((255 : Byte) :: P) ∧
          mpz_import ((255 : Byte) :: P) < 11240984676627644417) :=
  ⟨by decide, block_below_modulus 11240984676627644417 (by decide)⟩

/-- C13 (failing input): with the 64-bit modulus `n = 11240984676627644417` (block size
`k = 7`) and `e = 65537`, `rsa_encrypt_file` on the empty file runs one pass whose payload is
empty and writes one line, the encryption of the block that holds only `0xFF`; on the six-byte
file `68 65 6c 6c 6f 21` it writes two lines, and the second one is again the encryption of
the block that holds only `0xFF`. -/
theorem rsa_encrypt_file_sentinel_only_line :
    (mpz_sizeinbase2 11240984676627644417 - 1) / 8 = 7 ∧
      rsa_encrypt (mpz_import [255]) 65537 11240984676627644417 = some 7741202443770413263 ∧
      rsa_encrypt_file_payloads 1 7 0 1 [] = some [[]] ∧
      rsa_encrypt_file [] 11240984676627644417 65537 = some [7741202443770413263] ∧
      rsa_encrypt_file_payloads 7 7 6 1 [0x68, 0x65, 0x6c, 0x6c, 0x6f, 0x21]
        = some [[0x68, 0x65, 0x6c, 0x6c, 0x6f, 0x21], []] ∧
      rsa_encrypt_file [0x68, 0x65, 0x6c, 0x6c, 0x6f, 0x21] 11240984676627644417 65537
        = some [4274644605642210613, 7741202443770413263] :=
  ⟨by decide, by decide, by decide, by decide, by decide, by decide⟩

/-- C20: for every payload `P` of at most `k - 1` bytes, empty or beginning with zero bytes
or not, `mpz_export` of the value that `mpz_import` gives to `0xFF` followed by `P` is `0xFF`
followed by `P`; so a pass of `rsa_decrypt_file` whose decryption is that value writes
exactly `P`. -/
theorem sentinel_block_lossless (k : ℕ) (payload : List Byte) (hlen : payload.length + 1 ≤ k) :
    mpz_export (mpz_import ((255 : Byte) :: payload)) = (255 : Byte) :: payload ∧
      ∀ c n d : ℤ, rsa_decrypt c d n = some (mpz_import ((255 : Byte) :: payload)) →
        rsa_decrypt_file_block k c n d = some payload := by
  refine ⟨mpz_export_import_sentinel payload, ?_⟩
  intro c n d h
  rw [rsa_decrypt_file_block, h]
  simp only [mpz_export_import_sentinel, List.length_cons, List.tail_cons]
  rw [if_neg (by omega), if_neg (by omega)]

theorem sentinel_block_lossless_witness :
    ([0, 0, 7] : List Byte).length + 1 ≤ 7 ∧
      mpz_export (mpz_import ((255 : Byte) :: [0, 0, 7])) = (255 : Byte) :: [0, 0, 7] ∧
      ∀ c n d : ℤ, rsa_decrypt c d n = some (mpz_import ((255 : Byte) :: [0, 0, 7])) →
        rsa_decrypt_file_block 7 c n d = some [0, 0, 7] :=
  ⟨by decide, sentinel_block_lossless 7 [0, 0, 7] (by decide)⟩

/-! ## Distinct primes -/

theorem rsa_make_pub_primes (random : ℕ) (state : RandState) (nbits iters : ℕ) (p q n e : ℤ)
    (state1 : RandState)
    (h : rsa_make_pub random state nbits iters = some (p, q, n, e, state1)) :
    ∃ st1 st2,
      make_prime state ((rsa_make_pub_p_bits random nbits + 1) % 2 ^ 64) iters = some (p, st1) ∧
      make_prime st1 ((rsa_make_pub_q_bits random nbits + 1) % 2 ^ 64) iters = some (q, st2) := by
  rw [rsa_make_pub] at h
  split at h
  · simp at h
  · dsimp only at h
    split at h
    · simp at h
    · rename_i p1 st1 hp
      split at h
      · simp at h
      · rename_i q1 st2 hq
        split at h
        · simp at h
        · simp only [Option.some.injEq, Prod.mk.injEq] at h
          obtain ⟨h1, h2, _⟩ := h
          subst h1 h2
          exact ⟨st1, st2, hp, hq⟩

theorem make_prime_size (state : RandState) (bits iters : ℕ) (res : ℤ) (state1 : RandState)
    (hbits : bits < 2 ^ 64) (h : make_prime state bits iters = some (res, state1)) :
    1 ≤ bits ∧ bits - 1 ≤ mpz_sizeinbase2 res ∧ mpz_sizeinbase2 res ≤ bits := by
  obtain ⟨⟨st0, hacc⟩, hsize, _, hlt⟩ := make_prime_spec state bits iters res state1 h
  have h2 := is_prime_true_two_le _ _ _ _ hacc
  have hle := mpz_sizeinbase2_le res bits (by omega) hlt
  have hb : 1 ≤ bits := by
    by_contra hb0
    have : bits = 0 := by omega
    rw [this] at hlt
    norm_num at hlt
    omega
  refine ⟨hb, ?_, hle⟩
  have : (bits + 2 ^ 64 - 1) % 2 ^ 64 = bits - 1 := by omega
  omega

/-- C11 (counterexample): with `nbits = 4` and both candidates equal to 3, `rsa_make_pub`
returns `p = q = 3`; with `nbits = 8` and both candidates equal to 13 it returns
`p = q = 13`. -/
theorem rsa_make_pub_equal_primes :
    rsa_make_pub 1 [3, 3, 3] 4 50 = some (3, 3, 9, 3, []) ∧
      rsa_make_pub 2 [13, 0, 13, 0, 5] 8 2 = some (13, 13, 169, 5, []) :=
  ⟨by decide, by decide⟩

/-- C11 (amended): for every outcome of `rsa_make_pub (nbits, iters)` in which the sizes
asked of `make_prime`, `p_bits + 1` and `q_bits + 1`, differ by at least 2, `p ≠ q`. -/
theorem rsa_make_pub_distinct_of_sizes (random : ℕ) (state : RandState) (nbits iters : ℕ)
    (p q n e : ℤ) (state1 : RandState)
    (h : rsa_make_pub random state nbits iters = some (p, q, n, e, state1))
    (hsizes : rsa_make_pub_p_bits random nbits + 2 ≤ rsa_make_pub_q_bits random nbits ∨
      rsa_make_pub_q_bits random nbits + 2 ≤ rsa_make_pub_p_bits random nbits) :
    p ≠ q := by
  obtain ⟨st1, st2, hp, hq⟩ := rsa_make_pub_primes random state nbits iters p q n e state1 h
  have hpb : rsa_make_pub_p_bits random nbits < 2 ^ 64 := Nat.mod_lt _ (by positivity)
  have hqb : rsa_make_pub_q_bits random nbits < 2 ^ 64 := Nat.mod_lt _ (by positivity)
  obtain ⟨hp1, hp2, hp3⟩ := make_prime_size _ _ _ _ _ (Nat.mod_lt _ (by positivity)) hp
  obtain ⟨hq1, hq2, hq3⟩ := make_prime_size _ _ _ _ _ (Nat.mod_lt _ (by positivity)) hq
  intro hpq
  subst hpq
  omega

theorem rsa_make_pub_distinct_of_sizes_witness :
    rsa_make_pub 0 [5, 0, 101, 0, 3] 8 2 = some (5, 101, 505, 3, []) ∧
      (rsa_make_pub_p_bits 0 8 + 2 ≤ rsa_make_pub_q_bits 0 8 ∨
        rsa_make_pub_q_bits 0 8 + 2 ≤ rsa_make_pub_p_bits 0 8) ∧ (5 : ℤ) ≠ 101 :=
  ⟨by decide, by decide,
    rsa_make_pub_distinct_of_sizes 0 [5, 0, 101, 0, 3] 8 2 5 101 505 3 [] (by decide)
      (by decide)⟩

/-! ## is_prime as the strong-probable-prime test -/

theorem is_prime_split_pow : ∀ (k fuel : ℕ) (s0 r : ℤ), 0 < r → r % 2 = 1 →
    (2 ^ k * r).toNat < fuel → is_prime_split fuel s0 (2 ^ k * r) = some (s0 + k, r) := by
  intro k
  induction k with
  | zero =>
    intro fuel s0 r hr hodd hfuel
    cases fuel with
    | zero => omega
    | succ fuel =>
      rw [pow_zero, one_mul, is_prime_split, if_neg (by omega)]
      simp
  | succ k ih =>
    intro fuel s0 r hr hodd hfuel
    have hpos : 0 < (2 : ℤ) ^ k * r := by positivity
    have hdouble : (2 : ℤ) ^ (k + 1) * r = 2 * (2 ^ k * r) := by ring
    cases fuel with
    | zero => omega
    | succ fuel =>
      rw [hdouble] at hfuel ⊢
      rw [is_prime_split, if_pos (by omega)]
      have hhalf : 2 * ((2 : ℤ) ^ k * r) / 2 = 2 ^ k * r := by omega
      rw [hhalf, ih fuel (s0 + 1) r hr hodd (by omega)]
      congr 2
      push_cast
      ring

theorem sq_mod_pow (y n : ℤ) (i : ℕ) : (y ^ 2 % n) ^ 2 ^ i % n = y ^ 2 ^ (i + 1) % n := by
  have h : (y ^ 2 % n) ^ 2 ^ i ≡ (y ^ 2) ^ 2 ^ i [ZMOD n] := (Int.mod_modEq _ _).pow _
  rw [h.eq, ← pow_mul, ← pow_succ']

theorem is_prime_squarings_spec (n : ℤ) (hn : 3 ≤ n) (s : ℤ) :
    ∀ (fuel e : ℕ) (y j : ℤ), e + 1 ≤ fuel → 1 ≤ e → j + e = s + 1 → 0 ≤ y → y < n → y ≠ 1 →
      ∃ res, is_prime_squarings fuel y j (s - 1) n = some res ∧
        (res = some (n - 1) ↔ ∃ i, i < e ∧ y ^ 2 ^ i % n = n - 1) := by
  intro fuel
  induction fuel with
  | zero => intro e y j h; omega
  | succ fuel ih =>
    intro e y j hfuel he hj h0 hlt hne
    have hself : y ^ 2 ^ 0 % n = y := by
      rw [pow_zero, pow_one, Int.emod_eq_of_lt h0 hlt]
    by_cases hy : y = n - 1
    · refine ⟨some y, ?_, ?_⟩
      · rw [is_prime_squarings, if_neg (by simp [hy])]
      · constructor
        · intro _
          exact ⟨0, by omega, by rw [hself, hy]⟩
        · intro _
          rw [hy]
    · by_cases he1 : e = 1
      · refine ⟨some y, ?_, ?_⟩
        · rw [is_prime_squarings, if_neg (by omega)]
        · constructor
          · intro h
            simp only [Option.some.injEq] at h
            exact absurd h hy
          · rintro ⟨i, hi, hval⟩
            have : i = 0 := by omega
            rw [this, hself] at hval
            exact absurd hval hy
      · have hcond : j ≤ s - 1 ∧ y ≠ n - 1 := ⟨by omega, hy⟩
        have htwo : (2 : ℤ).toNat = 2 := rfl
        have hstep : (∃ i, i < e ∧ y ^ 2 ^ i % n = n - 1) ↔
            ∃ i, i < e - 1 ∧ (y ^ 2 % n) ^ 2 ^ i % n = n - 1 := by
          constructor
          · rintro ⟨i, hi, hval⟩
            cases i with
            | zero =>
              rw [hself] at hval
              exact absurd hval hy
            | succ i => exact ⟨i, by omega, by rw [sq_mod_pow]; exact hval⟩
          · rintro ⟨i, hi, hval⟩
            exact ⟨i + 1, by omega, by rw [← sq_mod_pow]; exact hval⟩
        rw [is_prime_squarings, if_pos hcond, pow_mod_eq y 2 n (by decide) (by omega), htwo]
        by_cases hy1 : y ^ 2 % n = 1
        · refine ⟨none, by simp [hy1], ?_⟩
          constructor
          · intro h
            simp at h
          · rw [hstep]
            rintro ⟨i, _, hval⟩
            rw [hy1, one_pow, Int.emod_eq_of_lt (by decide) (by omega)] at hval
            omega
        · obtain ⟨res, hres, hiff⟩ := ih (e - 1) (y ^ 2 % n) (j + 1) (by omega) (by omega)
            (by omega) (Int.emod_nonneg _ (by omega)) (Int.emod_lt_of_pos _ (by omega)) hy1
          refine ⟨res, by simp only [hy1, if_false]; exact hres, ?_⟩
          rw [hstep]
          exact hiff

theorem strongProbablePrime_iff (n : ℤ) (s r : ℕ) (hs : 1 ≤ s) (a : ℤ) :
    StrongProbablePrime n s r a ↔
      a ^ r % n = 1 ∨ a ^ r % n = n - 1 ∨ ∃ i, i < s ∧ (a ^ r % n) ^ 2 ^ i % n = n - 1 := by
  have hpow : ∀ i : ℕ, (a ^ r % n) ^ 2 ^ i % n = a ^ (2 ^ i * r) % n := by
    intro i
    have h : (a ^ r % n) ^ 2 ^ i ≡ (a ^ r) ^ 2 ^ i [ZMOD n] := (Int.mod_modEq _ _).pow _
    rw [h.eq, ← pow_mul, mul_comm]
  rw [StrongProbablePrime]
  constructor
  · rintro (h | ⟨j, hj, hval⟩)
    · exact Or.inl h
    · exact Or.inr (Or.inr ⟨j, hj, by rw [hpow]; exact hval⟩)
  · rintro (h | h | ⟨i, hi, hval⟩)
    · exact Or.inl h
    · exact Or.inr ⟨0, by omega, by rw [pow_zero, one_mul]; exact h⟩
    · exact Or.inr ⟨i, hi, by rw [← hpow]; exact hval⟩

theorem is_prime_rounds_spec (n : ℤ) (hn : 5 ≤ n) (s r : ℕ) (hs : 1 ≤ s) :
    ∀ (rounds : ℕ) (state : RandState), rounds ≤ state.length →
      ∃ b state1, is_prime_rounds rounds n s r state = some (b, state1) ∧
        (b = true ↔ ∀ x ∈ state.take rounds,
          StrongProbablePrime n s r ((x : ℤ) % (n - 3) + 2)) := by
  intro rounds
  induction rounds with
  | zero =>
    intro state _
    exact ⟨true, state, by simp [is_prime_rounds], by simp⟩
  | succ rounds ih =>
    intro state hlen
    cases state with
    | nil => simp at hlen
    | cons x rest =>
      obtain ⟨b, st1, hrest, hiff⟩ := ih rest (by simpa using hlen)
      have hy0 : 0 ≤ ((x : ℤ) % (n - 3) + 2) ^ r % n := Int.emod_nonneg _ (by omega)
      have hy1 : ((x : ℤ) % (n - 3) + 2) ^ r % n < n := Int.emod_lt_of_pos _ (by omega)
      have hsprp := strongProbablePrime_iff n s r hs ((x : ℤ) % (n - 3) + 2)
      have hcont : StrongProbablePrime n s r ((x : ℤ) % (n - 3) + 2) →
          (b = true ↔ ∀ y ∈ (x :: rest).take (rounds + 1),
            StrongProbablePrime n s r ((y : ℤ) % (n - 3) + 2)) := by
        intro hx
        rw [hiff]
        simp only [List.take_succ_cons, List.mem_cons, forall_eq_or_imp]
        exact ⟨fun h => ⟨hx, h⟩, fun h => h.2⟩
      have hfail : ¬ StrongProbablePrime n s r ((x : ℤ) % (n - 3) + 2) →
          ((false : Bool) = true ↔ ∀ y ∈ (x :: rest).take (rounds + 1),
            StrongProbablePrime n s r ((y : ℤ) % (n - 3) + 2)) := by
        intro hno
        simp only [List.take_succ_cons, List.mem_cons, forall_eq_or_imp]
        constructor
        · intro h
          simp at h
        · intro h
          exact absurd h.1 hno
      rw [is_prime_rounds]
      simp only [mpz_urandomm]
      rw [pow_mod_eq _ r n (Int.natCast_nonneg r) (by omega), Int.toNat_natCast]
      simp only []
      by_cases hy : ((x : ℤ) % (n - 3) + 2) ^ r % n ≠ 1 ∧ ((x : ℤ) % (n - 3) + 2) ^ r % n ≠ n - 1
      · rw [if_pos hy]
        obtain ⟨res, hres, hresiff⟩ := is_prime_squarings_spec n (by omega) s
          ((s : ℤ).toNat + 1) s _ 1 (by simp) hs (by ring) hy0 hy1 hy.1
        rw [hres]
        by_cases hpass : res = some (n - 1)
        · subst hpass
          simp only [ne_eq, not_true_eq_false, if_false]
          exact ⟨b, st1, hrest, hcont (hsprp.mpr (Or.inr (Or.inr (hresiff.mp rfl))))⟩
        · have hno : ¬ StrongProbablePrime n s r ((x : ℤ) % (n - 3) + 2) := by
            rw [hsprp]
            rintro (h | h | h)
            · exact hy.1 h
            · exact hy.2 h
            · exact hpass (hresiff.mpr h)
          cases res with
          | none => exact ⟨false, rest, rfl, hfail hno⟩
          | some y1 =>
            have hne : y1 ≠ n - 1 := fun h => hpass (by rw [h])
            simp only [ne_eq, hne, not_false_eq_true, if_true]
            exact ⟨false, rest, rfl, hfail hno⟩
      · rw [if_neg hy]
        refine ⟨b, st1, hrest, hcont ?_⟩
        rw [hsprp]
        by_cases h1 : ((x : ℤ) % (n - 3) + 2) ^ r % n = 1
        · exact Or.inl h1
        · right; left
          by_contra h2
          exact hy ⟨h1, h2⟩

/-- C18: for odd `n ≥ 5` with `n - 1 = 2 ^ s * r`, `r` odd, and a random state that holds
the `iters - 1` draws of the rounds, `is_prime (n, iters)` returns true if and only if every
drawn base `a` (the draw reduced below `n - 3`, plus 2, so any value of `[2, n - 2]`)
satisfies `a ^ r mod n = 1` or `a ^ (2 ^ j * r) mod n = n - 1` for some `0 ≤ j < s`. -/
theorem is_prime_strong_probable_prime (n : ℤ) (s r iters : ℕ) (state : RandState)
    (hn : 5 ≤ n) (hodd : n % 2 = 1) (hsplit : n - 1 = 2 ^ s * (r : ℤ)) (hr : r % 2 = 1)
    (hlen : iters - 1 ≤ state.length) :
    ∃ b state1, is_prime n iters state = some (b, state1) ∧
      (b = true ↔ ∀ x ∈ state.take (iters - 1),
        StrongProbablePrime n s r ((x : ℤ) % (n - 3) + 2)) := by
  have hs : 1 ≤ s := by
    by_contra h0
    have : s = 0 := by omega
    rw [this, pow_zero, one_mul] at hsplit
    omega
  have hrpos : (0 : ℤ) < (r : ℤ) := by omega
  have hres : is_prime_split n.toNat 0 (n - 1) = some ((s : ℤ), (r : ℤ)) := by
    rw [hsplit, is_prime_split_pow s n.toNat 0 r hrpos (by omega) (by rw [← hsplit]; omega)]
    simp
  rw [is_prime, if_neg (by omega), if_neg (by omega), hres]
  exact is_prime_rounds_spec n hn s r hs (iters - 1) state hlen

theorem is_prime_strong_probable_prime_witness :
    (5 : ℤ) ≤ 9 ∧ (9 : ℤ) % 2 = 1 ∧ (9 : ℤ) - 1 = 2 ^ 3 * ((1 : ℕ) : ℤ) ∧ 1 % 2 = 1 ∧
      3 - 1 ≤ ([0, 5] : List ℕ).length ∧
      ∃ b state1, is_prime 9 3 [0, 5] = some (b, state1) ∧
        (b = true ↔ ∀ x ∈ ([0, 5] : List ℕ).take (3 - 1),
          StrongProbablePrime 9 3 1 ((x : ℤ) % (9 - 3) + 2)) :=
  ⟨by decide, by decide, by decide, by decide, by decide,
    is_prime_strong_probable_prime 9 3 1 3 [0, 5] (by decide) (by decide) (by decide)
      (by decide) (by decide)⟩

/-! ## The number of rounds of is_prime -/

theorem is_prime_rounds_even_total (n r : ℤ) (hn : 5 ≤ n) (hr : 0 ≤ r) :
    ∀ (rounds : ℕ) (state : RandState), rounds ≤ state.length →
      ∃ b state1, is_prime_rounds rounds n 0 r state = some (b, state1) := by
  intro rounds
  induction rounds with
  | zero => intro state _; exact ⟨true, state, by simp [is_prime_rounds]⟩
  | succ rounds ih =>
    intro state hlen
    cases state with
    | nil => simp at hlen
    | cons x rest =>
      obtain ⟨b, st1, hrest⟩ := ih rest (by simpa using hlen)
      rw [is_prime_rounds]
      simp only [mpz_urandomm]
      rw [pow_mod_eq _ r n hr (by omega)]
      simp only []
      split_ifs with hy
      · have hsq : is_prime_squarings ((0 : ℤ).toNat + 1)
            (((x : ℤ) % (n - 3) + 2) ^ r.toNat % n) 1 (0 - 1) n
            = some (some (((x : ℤ) % (n - 3) + 2) ^ r.toNat % n)) := by
          have h0 : (0 : ℤ).toNat + 1 = 0 + 1 := rfl
          rw [h0, is_prime_squarings, if_neg (by omega)]
        rw [hsq]
        simp only [ne_eq, hy.2, not_false_eq_true, if_true]
        exact ⟨false, rest, rfl⟩
      · exact ⟨b, st1, hrest⟩

theorem is_prime_total (n : ℤ) (hn : 5 ≤ n) (iters : ℕ) (state : RandState)
    (hlen : iters - 1 ≤ state.length) :
    ∃ b state1, is_prime n iters state = some (b, state1) := by
  obtain ⟨k, r, hsplit, _, _, hpos, _⟩ :=
    is_prime_split_spec n.toNat 0 (n - 1) (by omega) (by omega)
  rw [is_prime, if_neg (by omega), if_neg (by omega), hsplit]
  simp only [zero_add]
  rcases Nat.eq_zero_or_pos k with hk | hk
  · subst hk
    exact is_prime_rounds_even_total n r hn hpos.le _ _ hlen
  · have hcast : ((r.toNat : ℕ) : ℤ) = r := Int.toNat_of_nonneg hpos.le
    obtain ⟨b, st1, hres, _⟩ := is_prime_rounds_spec n hn k r.toNat hk (iters - 1) state hlen
    rw [hcast] at hres
    exact ⟨b, st1, hres⟩

/-- C19: the loop of `is_prime` runs `iters - 1` rounds.  For `iters = 0` and `iters = 1` and
every `n ≥ 5`, prime or composite, `is_prime` returns true and leaves the random state as it
was (no base is drawn); for `iters ≥ 2` it returns as soon as the random state holds
`iters - 1` draws, and the draws it consumes are at most `iters - 1`. -/
theorem is_prime_round_count (n : ℤ) (hn : 5 ≤ n) (state : RandState) :
    is_prime n 0 state = some (true, state) ∧ is_prime n 1 state = some (true, state) ∧
      ∀ iters : ℕ, 2 ≤ iters →
        (iters - 1 ≤ state.length → ∃ b state1, is_prime n iters state = some (b, state1)) ∧
        ∀ (b : Bool) (state1 : RandState), is_prime n iters state = some (b, state1) →
          ∃ used : List ℕ, state = used ++ state1 ∧ used.length ≤ iters - 1 := by
  obtain ⟨k, r, hsplit, _⟩ := is_prime_split_spec n.toNat 0 (n - 1) (by omega) (by omega)
  have h1 : ¬ (n ≤ 1 ∨ n = 4) := by omega
  have h2 : ¬ (n = 2 ∨ n = 3) := by omega
  refine ⟨?_, ?_, ?_⟩
  · rw [is_prime, if_neg h1, if_neg h2, hsplit]
    rfl
  · rw [is_prime, if_neg h1, if_neg h2, hsplit]
    rfl
  · intro iters _
    refine ⟨is_prime_total n hn iters state, ?_⟩
    intro b state1 h
    rw [is_prime, if_neg h1, if_neg h2, hsplit] at h
    exact is_prime_rounds_draws _ _ _ _ _ _ _ h

theorem is_prime_round_count_witness :
    (5 : ℤ) ≤ 9 ∧ is_prime 9 0 [1, 2] = some (true, [1, 2]) ∧
      is_prime 9 1 [1, 2] = some (true, [1, 2]) ∧
      ∀ iters : ℕ, 2 ≤ iters →
        (iters - 1 ≤ ([1, 2] : List ℕ).length →
          ∃ b state1, is_prime 9 iters [1, 2] = some (b, state1)) ∧
        ∀ (b : Bool) (state1 : RandState), is_prime 9 iters [1, 2] = some (b, state1) →
          ∃ used : List ℕ, [1, 2] = used ++ state1 ∧ used.length ≤ iters - 1 :=
  ⟨by decide, is_prime_round_count 9 (by decide) [1, 2]⟩

/-! ## pow_mod on its whole domain -/

theorem pow_mod_eq_of_pos (b d m : ℤ) (hd : 0 < d) (hm : 0 < m) :
    pow_mod b d m = some (b ^ d.toNat % m) := by
  obtain ⟨r, hr, hmod, hrange, _⟩ :=
    pow_mod_loop_spec m hm (d.toNat + 1) d.toNat 1 b (Nat.lt_succ_self _)
  rw [Int.toNat_of_nonneg hd.le] at hr
  rw [pow_mod, hr]
  congr 1
  obtain ⟨h0, h1⟩ := hrange (by omega)
  rw [one_mul] at hmod
  rw [← hmod.eq, Int.emod_eq_of_lt h0 h1]

/-- C21 (failing input): for exponent 0 and modulus 1 `pow_mod` returns 1, whatever the base,
which is neither below the modulus nor equal to `base ^ 0 mod 1 = 0`. -/
theorem pow_mod_exponent_zero_modulus_one :
    pow_mod 5 0 1 = some 1 ∧ pow_mod 0 0 1 = some 1 ∧ pow_mod (-7) 0 1 = some 1 ∧
      ¬ ((1 : ℤ) < 1) ∧ (5 : ℤ) ^ (0 : ℤ).toNat % 1 = 0 :=
  ⟨by decide, by decide, by decide, by decide, by decide⟩

/-! ## The bit split of rsa_make_pub -/

theorem rsa_make_pub_unfold (random : ℕ) (state : RandState) (nbits iters : ℕ) :
    rsa_make_pub random state nbits iters =
      if rsa_make_pub_divisor nbits = 0 then none
      else
        match make_prime state ((rsa_make_pub_p_bits random nbits + 1) % 2 ^ 64) iters with
        | none => none
        | some (p, state1) =>
          match make_prime state1 ((rsa_make_pub_q_bits random nbits + 1) % 2 ^ 64) iters with
          | none => none
          | some (q, state2) =>
            match rsa_make_pub_exponent state2 nbits ((p - 1) * (q - 1)) with
            | none => none
            | some (e, state3) => some (p, q, p * q, e, state3) := rfl

/-- C22 (counterexample): for `nbits = 2 ^ 63` the product `3 * nbits` wraps around in
`uint64_t`, the divisor `(3 * nbits) / 4 - nbits / 4` is 0 and the run of `rsa_make_pub` ends at
the `%`. -/
theorem rsa_make_pub_divisor_zero :
    2 ≤ 9223372036854775808 ∧ 9223372036854775808 < 2 ^ 64 ∧
      rsa_make_pub_divisor 9223372036854775808 = 0 ∧
      rsa_make_pub 1 [3, 5, 7] 9223372036854775808 50 = none :=
  ⟨by decide, by decide, by decide, by decide⟩

/-- C22 (amended): for every `nbits ≥ 2` whose triple does not wrap around in `uint64_t`
(`3 * nbits < 2 ^ 64`) and every value returned by `random ()`, the divisor
`(3 * nbits) / 4 - nbits / 4` is not zero, `nbits / 4 ≤ p_bits < (3 * nbits) / 4`,
`q_bits = nbits - p_bits ≥ 1`, and `rsa_make_pub` asks `make_prime` for `p_bits + 1` and then
for `q_bits + 1` bits. -/
theorem rsa_make_pub_bit_split (random nbits : ℕ) (h2 : 2 ≤ nbits) (hwrap : 3 * nbits < 2 ^ 64) :
    rsa_make_pub_divisor nbits = 3 * nbits / 4 - nbits / 4 ∧
      rsa_make_pub_divisor nbits ≠ 0 ∧
      nbits / 4 ≤ rsa_make_pub_p_bits random nbits ∧
      rsa_make_pub_p_bits random nbits < 3 * nbits / 4 ∧
      rsa_make_pub_q_bits random nbits = nbits - rsa_make_pub_p_bits random nbits ∧
      1 ≤ rsa_make_pub_q_bits random nbits ∧
      ∀ (state : RandState) (iters : ℕ),
        rsa_make_pub random state nbits iters =
          match make_prime state (rsa_make_pub_p_bits random nbits + 1) iters with
          | none => none
          | some (p, state1) =>
            match make_prime state1 (rsa_make_pub_q_bits random nbits + 1) iters with
            | none => none
            | some (q, state2) =>
              match rsa_make_pub_exponent state2 nbits ((p - 1) * (q - 1)) with
              | none => none
              | some (e, state3) => some (p, q, p * q, e, state3) := by
  have hle : nbits / 4 ≤ 3 * nbits / 4 := by omega
  have hdiv : rsa_make_pub_divisor nbits = 3 * nbits / 4 - nbits / 4 := by
    rw [rsa_make_pub_divisor, Nat.mod_eq_of_lt hwrap]
    have h1 : 3 * nbits / 4 + 2 ^ 64 - nbits / 4 = (3 * nbits / 4 - nbits / 4) + 2 ^ 64 := by
      omega
    rw [h1, Nat.add_mod_right]
    exact Nat.mod_eq_of_lt (by omega)
  have hpos : 0 < 3 * nbits / 4 - nbits / 4 := by omega
  have hmod : random % (3 * nbits / 4 - nbits / 4) < 3 * nbits / 4 - nbits / 4 :=
    Nat.mod_lt _ hpos
  have hp : rsa_make_pub_p_bits random nbits =
      random % (3 * nbits / 4 - nbits / 4) + nbits / 4 := by
    have h := hdiv
    rw [rsa_make_pub_divisor] at h
    rw [rsa_make_pub_p_bits, h]
    omega
  have hq : rsa_make_pub_q_bits random nbits = nbits - rsa_make_pub_p_bits random nbits := by
    rw [rsa_make_pub_q_bits]
    omega
  refine ⟨hdiv, by omega, by omega, by omega, hq, by omega, ?_⟩
  intro state iters
  have hp1 : (rsa_make_pub_p_bits random nbits + 1) % 2 ^ 64
      = rsa_make_pub_p_bits random nbits + 1 := by omega
  have hq1 : (rsa_make_pub_q_bits random nbits + 1) % 2 ^ 64
      = rsa_make_pub_q_bits random nbits + 1 := by omega
  rw [rsa_make_pub_unfold, if_neg (by omega), hp1, hq1]

theorem rsa_make_pub_bit_split_witness :
    2 ≤ 256 ∧ 3 * 256 < 2 ^ 64 ∧
      rsa_make_pub_divisor 256 = 3 * 256 / 4 - 256 / 4 ∧
      rsa_make_pub_divisor 256 ≠ 0 ∧
      256 / 4 ≤ rsa_make_pub_p_bits 1804289383 256 ∧
      rsa_make_pub_p_bits 1804289383 256 < 3 * 256 / 4 ∧
      rsa_make_pub_q_bits 1804289383 256 = 256 - rsa_make_pub_p_bits 1804289383 256 ∧
      1 ≤ rsa_make_pub_q_bits 1804289383 256 ∧
      ∀ (state : RandState) (iters : ℕ),
        rsa_make_pub 1804289383 state 256 iters =
          match make_prime state (rsa_make_pub_p_bits 1804289383 256 + 1) iters with
          | none => none
          | some (p, state1) =>
            match make_prime state1 (rsa_make_pub_q_bits 1804289383 256 + 1) iters with
            | none => none
            | some (q, state2) =>
              match rsa_make_pub_exponent state2 256 ((p - 1) * (q - 1)) with
              | none => none
              | some (e, state3) => some (p, q, p * q, e, state3) :=
  ⟨by decide, by decide, rsa_make_pub_bit_split 1804289383 256 (by decide) (by decide)⟩

/-! ## The payloads of a file of at least one block -/

theorem rsa_encrypt_file_bytes_to_read_full (k bytes index : ℕ) (hk : 2 ≤ k)
    (hlen : k - 1 ≤ bytes) (hbytes : bytes < 2 ^ 64) :
    rsa_encrypt_file_bytes_to_read k bytes index = k - 1 := by
  have hkm : (k + 2 ^ 64 - 1) % 2 ^ 64 = k - 1 := by omega
  rw [rsa_encrypt_file_bytes_to_read, hkm, if_pos (by omega)]

theorem rsa_encrypt_file_payloads_flatten (k bytes : ℕ) (hk : 2 ≤ k) (hlen : k - 1 ≤ bytes)
    (hbytes : bytes < 2 ^ 64) : ∀ (fuel index : ℕ) (rest : List Byte), rest.length < fuel →
    ∃ payloads, rsa_encrypt_file_payloads fuel k bytes index rest = some payloads ∧
      payloads.flatten = rest := by
  intro fuel
  induction fuel with
  | zero => intro index rest h; omega
  | succ fuel ih =>
    intro index rest hfuel
    rw [rsa_encrypt_file_payloads_succ,
      rsa_encrypt_file_bytes_to_read_full k bytes index hk hlen hbytes, if_neg (by omega)]
    by_cases hj : 0 < (List.take (k - 1) rest).length
    · rw [if_pos hj]
      obtain ⟨ps, hps, hflat⟩ := ih ((index + (List.take (k - 1) rest).length) % 2 ^ 64)
        (List.drop (k - 1) rest) (by
          rw [List.length_take] at hj
          rw [List.length_drop]
          omega)
      rw [hps]
      refine ⟨_, rfl, ?_⟩
      rw [List.flatten_cons, hflat, List.take_append_drop]
    · rw [if_neg hj]
      refine ⟨_, rfl, ?_⟩
      have hnil : rest = [] := by
        rw [List.length_take] at hj
        have : rest.length = 0 := by omega
        exact List.length_eq_zero.mp this
      subst hnil
      simp

/-- C23: for every `n` with block size `k ≥ 2` and every input file `B` of at least `k - 1`
bytes (of a length that `ftell` can report), `rsa_encrypt_file` returns, each of its lines is
the encryption of a block `0xFF` followed by a payload of at most `k - 1` bytes, and the
payloads of the passes, concatenated in the order of the lines, are `B`. -/
theorem rsa_encrypt_file_covers_input (n e : ℤ) (infile : List Byte)
    (hk : 2 ≤ (mpz_sizeinbase2 n - 1) / 8)
    (hlen : (mpz_sizeinbase2 n - 1) / 8 - 1 ≤ infile.length) (hfile : infile.length < 2 ^ 64) :
    ∃ payloads lines,
      rsa_encrypt_file_payloads (infile.length + 1) ((mpz_sizeinbase2 n - 1) / 8)
        (infile.length % 2 ^ 64) 1 infile = some payloads ∧
      rsa_encrypt_file infile n e = some lines ∧
      List.Forall₂ (fun P c => rsa_encrypt (mpz_import ((255 : Byte) :: P)) e n = some c)
        payloads lines ∧
      (∀ P ∈ payloads, P.length ≤ (mpz_sizeinbase2 n - 1) / 8 - 1) ∧
      payloads.flatten = infile := by
  have hmod : infile.length % 2 ^ 64 = infile.length := Nat.mod_eq_of_lt hfile
  obtain ⟨payloads, hpay, hflat⟩ := rsa_encrypt_file_payloads_flatten _ _ hk
    (by rw [hmod]; exact hlen) (Nat.mod_lt _ (by positivity)) (infile.length + 1) 1 infile
    (Nat.lt_succ_self _)
  obtain ⟨lines, hlines, hall⟩ := rsa_encrypt_file_loop_of_payloads n e _ _ _ _ _ _ hpay
  refine ⟨payloads, lines, hpay, ?_, hall, ?_, hflat⟩
  · rw [rsa_encrypt_file, if_neg (by omega)]
    exact hlines
  · intro P hP
    have := rsa_encrypt_file_payloads_length _ _ _ _ _ _ (by omega)
      (by rw [hmod]) (Nat.mod_lt _ (by positivity)) hpay P hP
    omega

theorem rsa_encrypt_file_covers_input_witness :
    2 ≤ (mpz_sizeinbase2 11240984676627644417 - 1) / 8 ∧
      (mpz_sizeinbase2 11240984676627644417 - 1) / 8 - 1
        ≤ ([104, 101, 108, 108, 111, 32, 119, 111, 114, 108, 100] : List Byte).length ∧
      ∃ payloads lines,
        rsa_encrypt_file_payloads
          (([104, 101, 108, 108, 111, 32, 119, 111, 114, 108, 100] : List Byte).length + 1)
          ((mpz_sizeinbase2 11240984676627644417 - 1) / 8)
          (([104, 101, 108, 108, 111, 32, 119, 111, 114, 108, 100] : List Byte).length % 2 ^ 64)
          1 [104, 101, 108, 108, 111, 32, 119, 111, 114, 108, 100] = some payloads ∧
        rsa_encrypt_file [104, 101, 108, 108, 111, 32, 119, 111, 114, 108, 100]
          11240984676627644417 65537 = some lines ∧
        List.Forall₂ (fun P c => rsa_encrypt (mpz_import ((255 : Byte) :: P)) 65537
          11240984676627644417 = some c) payloads lines ∧
        (∀ P ∈ payloads, P.length ≤ (mpz_sizeinbase2 11240984676627644417 - 1) / 8 - 1) ∧
        payloads.flatten = [104, 101, 108, 108, 111, 32, 119, 111, 114, 108, 100] :=
  ⟨by decide, by decide,
    rsa_encrypt_file_covers_input 11240984676627644417 65537
      [104, 101, 108, 108, 111, 32, 119, 111, 114, 108, 100] (by decide) (by decide)
      (by decide)⟩

end RSA
